import Mathlib

/-!
# PuzzlePage: a shallow embedding of `src/pages/PuzzlePage/PuzzlePage.jsx`

The React component keeps eight state variables (`useState`), builds the
initial layout in a mount effect, and reacts to drag events and to timers
created with `setTimeout`.  The embedding keeps the state variables under
their source names in one record, adds the clock and the list of pending
timers as explicit state, and turns each handler and each timer callback
into a function on that record.

* `Math.random()` draws are a stream `rnd : Nat → ℚ`; piece `i` of the loop
  consumes draws `2 * i` and `2 * i + 1`, in that order.
* `placedPieces` is a JavaScript object used as a set of keys; it is a
  `Finset Nat`, `Object.keys(..).length` is its `card`.
* `initialPieces.sort(() => Math.random() - 0.5)` is an arbitrary
  permutation of `initialPieces`; the layout is therefore a parameter
  `shuffled` with `shuffled.Perm (initialPieces rnd)`.
* time is in integer milliseconds; `wait` fires each pending timer exactly when
  it is due, and `unmount` is the cleanup of the mount effect.
* the setters write the state record at once: handlers and timer callbacks run
  one at a time, each on the state the previous one left.
-/

namespace PuzzlePage

/-! ## Constants -/

def ROWS : Nat := 4
def COLS : Nat := 4
def TOTAL_PIECES : Nat := ROWS * COLS

/-- The value of `Math.ceil(TOTAL_PIECES / 4)`. -/
def piecesPerZone : Nat := (TOTAL_PIECES + 3) / 4

/-! ## Data model -/

/-- One record pushed on `initialPieces`. -/
structure Piece where
  id : Nat
  correctRow : Nat
  correctCol : Nat
  currentX : ℚ
  currentY : ℚ
deriving DecidableEq

/-- The callbacks handed to `setTimeout` in the component. -/
inductive TimerAction where
  /-- Callback `() => setShowHint(true)` of `hintTimer` (20000 ms). -/
  | hint
  /-- The outer completion callback (1500 ms): `setShowingFullImage(true)`,
  `setIsComplete(true)` and a nested `setTimeout` of 3000 ms. -/
  | fullImage
  /-- The nested completion callback (3000 ms): `setShowOverlay(true)`. -/
  | overlay
  /-- Callback of the wrong-placement branch (500 ms): it removes a CSS class
  from the DOM node of a piece and touches no state variable. -/
  | removeWrong (id : Nat)
deriving DecidableEq

/-- A pending timer: the time at which it is due and its callback. -/
structure Timer where
  due : Nat
  action : TimerAction
deriving DecidableEq

/-- The state variables of the component, the clock and the pending timers. -/
structure State where
  pieces : List Piece
  placedPieces : Finset Nat
  draggedPiece : Option Piece
  isComplete : Bool
  showHint : Bool
  showingFullImage : Bool
  showOverlay : Bool
  gridDisappearing : Bool
  now : Nat
  timers : List Timer

/-! ## Layout generation (the mount effect) -/

/-- The `switch (zone)` of the mount effect; `r1` and `r2` are the two
`Math.random()` draws of the iteration, in the order they are drawn. -/
def zonePosition (zone : Nat) (r1 r2 : ℚ) : ℚ × ℚ :=
  match zone with
  | 0 => (10 + r1 * 80, 5 + r2 * 15)
  | 1 => (10 + r1 * 80, 80 + r2 * 15)
  | 2 => (5 + r1 * 15, 25 + r2 * 50)
  | _ => (80 + r1 * 15, 25 + r2 * 50)

/-- The zone index `Math.floor(i / piecesPerZone)`. -/
def zoneOf (i : Nat) : Nat := i / piecesPerZone

/-- The record pushed in iteration `i` of the loop. -/
def makePiece (rnd : Nat → ℚ) (i : Nat) : Piece :=
  { id := i
    correctRow := i / COLS
    correctCol := i % COLS
    currentX := (zonePosition (zoneOf i) (rnd (2 * i)) (rnd (2 * i + 1))).1
    currentY := (zonePosition (zoneOf i) (rnd (2 * i)) (rnd (2 * i + 1))).2 }

/-- The array `initialPieces` after the loop, before the shuffle. -/
def initialPieces (rnd : Nat → ℚ) : List Piece :=
  (List.range TOTAL_PIECES).map (makePiece rnd)

/-- The state after the mount effect has run: `setPieces(shuffled)` and the
hint timer scheduled 20000 ms after mount (time 0). -/
def mount (shuffled : List Piece) : State :=
  { pieces := shuffled
    placedPieces := ∅
    draggedPiece := none
    isComplete := false
    showHint := false
    showingFullImage := false
    showOverlay := false
    gridDisappearing := false
    now := 0
    timers := [⟨20000, TimerAction.hint⟩] }

/-! ## Event handlers -/

/-- Handler `handleDragStart(e, piece)`. -/
def handleDragStart (s : State) (piece : Piece) : State :=
  { s with draggedPiece := some piece, showHint := false }

/-- Handler `handleDragOver(e)`: it only touches the event object. -/
def handleDragOver (s : State) : State := s

/-- Handler `handleDrop(e, row, col)`. -/
def handleDrop (s : State) (row col : Nat) : State :=
  match s.draggedPiece with
  | none => s
  | some d =>
    if d.correctRow = row ∧ d.correctCol = col then
      let newPlaced := insert d.id s.placedPieces
      let remaining := s.pieces.filter (fun p => p.id ≠ d.id)
      if newPlaced.card = TOTAL_PIECES then
        { s with
          placedPieces := newPlaced
          pieces := remaining
          gridDisappearing := true
          timers := s.timers ++ [⟨s.now + 1500, TimerAction.fullImage⟩]
          draggedPiece := none }
      else
        { s with
          placedPieces := newPlaced
          pieces := remaining
          draggedPiece := none }
    else
      if s.pieces.any (fun p => p.id = d.id) then
        { s with
          timers := s.timers ++ [⟨s.now + 500, TimerAction.removeWrong d.id⟩]
          draggedPiece := none }
      else
        { s with draggedPiece := none }

/-! ## Timers -/

/-- Run the callback of a timer; `s.now` is the time at which it fires. -/
def fireTimer (s : State) (a : TimerAction) : State :=
  match a with
  | TimerAction.hint => { s with showHint := true }
  | TimerAction.fullImage =>
    { s with
      showingFullImage := true
      isComplete := true
      timers := s.timers ++ [⟨s.now + 3000, TimerAction.overlay⟩] }
  | TimerAction.overlay => { s with showOverlay := true }
  | TimerAction.removeWrong _ => s

/-- The pending timer that is due first (the earliest scheduled one among
those with the same due time). -/
def earliest : List Timer → Option Timer
  | [] => none
  | t :: ts =>
    match earliest ts with
    | none => some t
    | some u => if t.due ≤ u.due then some t else some u

/-- Let the clock run up to `target`, firing every pending timer that falls
due on the way exactly at its due time, in due order.  `fuel` bounds the
number of callbacks run. -/
def advanceTo (target : Nat) : Nat → State → State
  | 0, s => { s with now := target }
  | fuel + 1, s =>
    match earliest s.timers with
    | none => { s with now := target }
    | some t =>
      if t.due ≤ target then
        advanceTo target fuel
          (fireTimer { s with now := t.due, timers := s.timers.erase t } t.action)
      else
        { s with now := target }

/-- Let `ms` milliseconds pass.  A callback schedules at most one further
timer and only the outer completion callback does, so twice the number of
pending timers is enough fuel. -/
def wait (s : State) (ms : Nat) : State :=
  advanceTo (s.now + ms) (2 * s.timers.length) s

/-- The cleanup returned by the mount effect: `clearTimeout(hintTimer)`.  The
hint timer is the only timer with the `hint` callback. -/
def unmount (s : State) : State :=
  { s with timers := s.timers.filter (fun t => t.action ≠ TimerAction.hint) }

/-! ## Sessions -/

/-- What can happen to a mounted component. -/
inductive Event where
  | dragStart (piece : Piece)
  | dragOver
  | drop (row col : Nat)
  | wait (ms : Nat)
deriving DecidableEq

/-- One event applied to a state. -/
def step (s : State) : Event → State
  | Event.dragStart piece => handleDragStart s piece
  | Event.dragOver => handleDragOver s
  | Event.drop row col => handleDrop s row col
  | Event.wait ms => wait s ms

/-- A sequence of events applied in order. -/
def run (s : State) : List Event → State
  | [] => s
  | e :: es => run (step s e) es

/-- The drag handler is attached to the rendered pieces only (`pieces.map`):
a `dragStart` names a piece of the unplaced collection. -/
def enabled (s : State) : Event → Bool
  | Event.dragStart piece => decide (piece ∈ s.pieces)
  | _ => true

/-- Every `dragStart` of the sequence names a piece that is unplaced when
the event happens. -/
def validFrom (s : State) : List Event → Bool
  | [] => true
  | e :: es => enabled s e && validFrom (step s e) es

/-- The call `handleDrop(e, row, col)` starts the completion sequence: it
schedules the 1500 ms completion timer. -/
def startedBy (s : State) (row col : Nat) : Bool :=
  decide ((handleDrop s row col).timers =
    s.timers ++ [⟨s.now + 1500, TimerAction.fullImage⟩])

/-- How many events of the sequence start the completion sequence. -/
def countStarts (s : State) : List Event → Nat
  | [] => 0
  | Event.drop row col :: es =>
    (if startedBy s row col then 1 else 0) + countStarts (handleDrop s row col) es
  | e :: es => countStarts (step s e) es

/-- The event is a `dragStart`. -/
def isDragStart : Event → Bool
  | Event.dragStart _ => true
  | _ => false

/-! ## Render surface -/

/-- The row of the grid cell `index`: `Math.floor(index / COLS)`. -/
def cellRow (index : Nat) : Nat := index / COLS

/-- The column of the grid cell `index`: `index % COLS`. -/
def cellCol (index : Nat) : Nat := index % COLS

/-- The value `placedPieces[index]` of the grid render: the cell is drawn
filled. -/
def isPlaced (s : State) (index : Nat) : Bool := decide (index ∈ s.placedPieces)

/-- The `backgroundPosition` of the filled grid cell `index`, in percent:
`(col / (COLS - 1)) * 100` and `(row / (ROWS - 1)) * 100`. -/
def cellBackgroundPosition (index : Nat) : ℚ × ℚ :=
  (((cellCol index : ℚ) / ((COLS - 1 : Nat) : ℚ)) * 100,
   ((cellRow index : ℚ) / ((ROWS - 1 : Nat) : ℚ)) * 100)

/-- The `backgroundPosition` of a floating piece, in percent:
`(piece.correctCol / (COLS - 1)) * 100` and
`(piece.correctRow / (ROWS - 1)) * 100`. -/
def pieceBackgroundPosition (piece : Piece) : ℚ × ℚ :=
  (((piece.correctCol : ℚ) / ((COLS - 1 : Nat) : ℚ)) * 100,
   ((piece.correctRow : ℚ) / ((ROWS - 1 : Nat) : ℚ)) * 100)

/-! ## Concrete sessions -/

/-- The draws of a run in which every `Math.random()` returns 0. -/
def zeroRnd : Nat → ℚ := fun _ => 0

/-- The layout of that run, shuffled into reverse order. -/
def demoLayout : List Piece := (initialPieces zeroRnd).reverse

/-- Drag every piece in turn onto its own cell, piece 0 first. -/
def placeAll : List Event :=
  (List.range TOTAL_PIECES).flatMap
    (fun i => [Event.dragStart (makePiece zeroRnd i), Event.drop (i / COLS) (i % COLS)])

/-- The first fifteen pieces placed, piece 15 still unplaced. -/
def placeFifteen : List Event := placeAll.take 30

/-- Fifteen pieces placed and piece 15 picked up. -/
def dragLast : List Event := placeFifteen ++ [Event.dragStart (makePiece zeroRnd 15)]

/-- A drag that begins 5000 ms after mount, followed by 15000 ms without any
event: the clock then stands at 20000 ms. -/
def earlyDrag : List Event :=
  [Event.wait 5000, Event.dragStart (makePiece zeroRnd 0), Event.wait 15000]

/-- The four flags the completion sequence drives: `gridDisappearing`,
`showingFullImage`, `isComplete`, `showOverlay`. -/
def phaseFlags (s : State) : Bool × Bool × Bool × Bool :=
  (s.gridDisappearing, s.showingFullImage, s.isComplete, s.showOverlay)

/-! ## Invariants used in the proofs -/

/-- The bookkeeping of tiles that every state of a session satisfies: the
unplaced ids are distinct, every unplaced piece is one the layout loop
built, the placed ids are exactly the ids below `TOTAL_PIECES` that are not
unplaced, and a dragged piece is an unplaced one. -/
structure Inv (s : State) : Prop where
  nodup : (s.pieces.map Piece.id).Nodup
  shape : ∀ p ∈ s.pieces,
    p.id < TOTAL_PIECES ∧ p.correctRow = p.id / COLS ∧ p.correctCol = p.id % COLS
  placed : ∀ i, i ∈ s.placedPieces ↔ i < TOTAL_PIECES ∧ i ∉ s.pieces.map Piece.id
  dragged : ∀ d, s.draggedPiece = some d → d ∈ s.pieces

/-- How many callbacks a pending timer can cause to run: the outer completion
callback schedules the nested one. -/
def timerWeight (t : Timer) : Nat :=
  match t.action with
  | TimerAction.fullImage => 2
  | _ => 1

/-- The number of callbacks the pending timers can cause to run. -/
def timersWeight (l : List Timer) : Nat := (l.map timerWeight).sum

/-- Every pending timer is due strictly later than the current time. -/
def timersAhead (s : State) : Prop := ∀ t ∈ s.timers, s.now < t.due

/-- What letting the clock run from state `s` up to `target` results in,
stated on the flags and on the pending timers of the result `r`. -/
structure WaitSpec (target : Nat) (s r : State) : Prop where
  now : r.now = target
  gridDisappearing : r.gridDisappearing = s.gridDisappearing
  showHint : r.showHint = true ↔
    s.showHint = true ∨ ∃ t ∈ s.timers, t.action = TimerAction.hint ∧ t.due ≤ target
  showingFullImage : r.showingFullImage = true ↔
    s.showingFullImage = true ∨
      ∃ t ∈ s.timers, t.action = TimerAction.fullImage ∧ t.due ≤ target
  isComplete : r.isComplete = true ↔
    s.isComplete = true ∨ ∃ t ∈ s.timers, t.action = TimerAction.fullImage ∧ t.due ≤ target
  showOverlay : r.showOverlay = true ↔
    s.showOverlay = true ∨
      (∃ t ∈ s.timers, t.action = TimerAction.overlay ∧ t.due ≤ target) ∨
      ∃ t ∈ s.timers, t.action = TimerAction.fullImage ∧ t.due + 3000 ≤ target
  timers : ∀ u, u ∈ r.timers ↔
    (u ∈ s.timers ∧ target < u.due) ∨
      ∃ t ∈ s.timers, t.action = TimerAction.fullImage ∧ t.due ≤ target ∧
        target < t.due + 3000 ∧ u = ⟨t.due + 3000, TimerAction.overlay⟩

/-- The hint timer as the pending timers show it: every pending timer is
ahead of the clock, a pending hint timer is due at 20000, and one is pending
as long as the clock is before 20000. -/
structure HintInv (s : State) : Prop where
  ahead : timersAhead s
  due : ∀ t ∈ s.timers, t.action = TimerAction.hint → t.due = 20000
  pending : s.now < 20000 → ∃ t ∈ s.timers, t.action = TimerAction.hint

/-- The completion sequence has not been started: its flags are all false
and no completion timer is pending. -/
structure Playing (s : State) : Prop where
  ahead : timersAhead s
  gridDisappearing : s.gridDisappearing = false
  showingFullImage : s.showingFullImage = false
  isComplete : s.isComplete = false
  showOverlay : s.showOverlay = false
  noTimer : ∀ t ∈ s.timers,
    t.action ≠ TimerAction.fullImage ∧ t.action ≠ TimerAction.overlay

/-- The completion sequence was started at time `T`: either the outer timer
is still pending, or it has fired and the nested one is pending, or both
have fired. -/
structure Sequenced (T : Nat) (s : State) : Prop where
  pieces : s.pieces = []
  draggedPiece : s.draggedPiece = none
  gridDisappearing : s.gridDisappearing = true
  ahead : timersAhead s
  phase :
    (s.showingFullImage = false ∧ s.isComplete = false ∧ s.showOverlay = false ∧
      (∃ t ∈ s.timers, t.action = TimerAction.fullImage) ∧
      (∀ t ∈ s.timers, t.action = TimerAction.fullImage → t.due = T + 1500) ∧
      (∀ t ∈ s.timers, t.action ≠ TimerAction.overlay)) ∨
    (T + 1500 ≤ s.now ∧
      s.showingFullImage = true ∧ s.isComplete = true ∧ s.showOverlay = false ∧
      (∃ t ∈ s.timers, t.action = TimerAction.overlay) ∧
      (∀ t ∈ s.timers, t.action = TimerAction.overlay → t.due = T + 4500) ∧
      (∀ t ∈ s.timers, t.action ≠ TimerAction.fullImage)) ∨
    (T + 4500 ≤ s.now ∧
      s.showingFullImage = true ∧ s.isComplete = true ∧ s.showOverlay = true ∧
      (∀ t ∈ s.timers,
        t.action ≠ TimerAction.fullImage ∧ t.action ≠ TimerAction.overlay))

/-! ## Frame lemmas -/

section Frame

theorem handleDrop_placedPieces (s : State) (row col : Nat) :
    (handleDrop s row col).placedPieces =
      match s.draggedPiece with
      | none => s.placedPieces
      | some d =>
        if d.correctRow = row ∧ d.correctCol = col then insert d.id s.placedPieces
        else s.placedPieces := by
  unfold handleDrop
  cases h : s.draggedPiece with
  | none => simp
  | some d => simp only; split_ifs <;> rfl

theorem handleDrop_pieces (s : State) (row col : Nat) :
    (handleDrop s row col).pieces =
      match s.draggedPiece with
      | none => s.pieces
      | some d =>
        if d.correctRow = row ∧ d.correctCol = col then
          s.pieces.filter (fun p => p.id ≠ d.id)
        else s.pieces := by
  unfold handleDrop
  cases h : s.draggedPiece with
  | none => simp
  | some d => simp only; split_ifs <;> rfl

theorem handleDrop_draggedPiece (s : State) (row col : Nat) :
    (handleDrop s row col).draggedPiece = none := by
  unfold handleDrop
  cases h : s.draggedPiece with
  | none => simpa using h
  | some d => simp only; split_ifs <;> rfl

theorem handleDrop_now (s : State) (row col : Nat) :
    (handleDrop s row col).now = s.now := by
  unfold handleDrop
  cases h : s.draggedPiece with
  | none => simp
  | some d => simp only; split_ifs <;> rfl

theorem handleDrop_showHint (s : State) (row col : Nat) :
    (handleDrop s row col).showHint = s.showHint := by
  unfold handleDrop
  cases h : s.draggedPiece with
  | none => simp
  | some d => simp only; split_ifs <;> rfl

theorem fireTimer_pieces (s : State) (a : TimerAction) :
    (fireTimer s a).pieces = s.pieces := by
  cases a <;> rfl

theorem fireTimer_placedPieces (s : State) (a : TimerAction) :
    (fireTimer s a).placedPieces = s.placedPieces := by
  cases a <;> rfl

theorem fireTimer_draggedPiece (s : State) (a : TimerAction) :
    (fireTimer s a).draggedPiece = s.draggedPiece := by
  cases a <;> rfl

theorem fireTimer_now (s : State) (a : TimerAction) :
    (fireTimer s a).now = s.now := by
  cases a <;> rfl

theorem advanceTo_pieces (target fuel : Nat) (s : State) :
    (advanceTo target fuel s).pieces = s.pieces := by
  induction fuel generalizing s with
  | zero => rfl
  | succ n ih =>
    unfold advanceTo
    cases h : earliest s.timers with
    | none => rfl
    | some t =>
      simp only
      split_ifs
      · rw [ih, fireTimer_pieces]
      · rfl

theorem advanceTo_placedPieces (target fuel : Nat) (s : State) :
    (advanceTo target fuel s).placedPieces = s.placedPieces := by
  induction fuel generalizing s with
  | zero => rfl
  | succ n ih =>
    unfold advanceTo
    cases h : earliest s.timers with
    | none => rfl
    | some t =>
      simp only
      split_ifs
      · rw [ih, fireTimer_placedPieces]
      · rfl

theorem advanceTo_draggedPiece (target fuel : Nat) (s : State) :
    (advanceTo target fuel s).draggedPiece = s.draggedPiece := by
  induction fuel generalizing s with
  | zero => rfl
  | succ n ih =>
    unfold advanceTo
    cases h : earliest s.timers with
    | none => rfl
    | some t =>
      simp only
      split_ifs
      · rw [ih, fireTimer_draggedPiece]
      · rfl

theorem advanceTo_now (target fuel : Nat) (s : State) :
    (advanceTo target fuel s).now = target := by
  induction fuel generalizing s with
  | zero => rfl
  | succ n ih =>
    unfold advanceTo
    cases h : earliest s.timers with
    | none => rfl
    | some t =>
      simp only
      split_ifs
      · rw [ih]
      · rfl

theorem mem_handleDrop_placedPieces (s : State) (row col i : Nat) :
    i ∈ (handleDrop s row col).placedPieces ↔
      i ∈ s.placedPieces ∨
        ∃ d, s.draggedPiece = some d ∧ d.id = i ∧ d.correctRow = row ∧ d.correctCol = col := by
  rw [handleDrop_placedPieces]
  cases h : s.draggedPiece with
  | none => simp
  | some d =>
    simp only
    split_ifs with hc
    · rw [Finset.mem_insert]
      constructor
      · rintro (rfl | hi)
        · exact Or.inr ⟨d, rfl, rfl, hc.1, hc.2⟩
        · exact Or.inl hi
      · rintro (hi | ⟨d', hd', rfl, -, -⟩)
        · exact Or.inr hi
        · cases hd'
          exact Or.inl rfl
    · constructor
      · intro hi
        exact Or.inl hi
      · rintro (hi | ⟨d', hd', -, hr, hcol⟩)
        · exact hi
        · cases hd'
          exact absurd ⟨hr, hcol⟩ hc

theorem wait_pieces (s : State) (ms : Nat) : (wait s ms).pieces = s.pieces :=
  advanceTo_pieces _ _ s

theorem wait_placedPieces (s : State) (ms : Nat) :
    (wait s ms).placedPieces = s.placedPieces :=
  advanceTo_placedPieces _ _ s

theorem wait_draggedPiece (s : State) (ms : Nat) :
    (wait s ms).draggedPiece = s.draggedPiece :=
  advanceTo_draggedPiece _ _ s

theorem wait_now (s : State) (ms : Nat) : (wait s ms).now = s.now + ms :=
  advanceTo_now _ _ s

theorem run_append (s : State) (es fs : List Event) :
    run s (es ++ fs) = run (run s es) fs := by
  induction es generalizing s with
  | nil => rfl
  | cons e es ih => exact ih (step s e)

theorem validFrom_append (s : State) (es fs : List Event) :
    validFrom s (es ++ fs) = (validFrom s es && validFrom (run s es) fs) := by
  induction es generalizing s with
  | nil => simp [validFrom, run]
  | cons e es ih => simp [validFrom, run, ih, Bool.and_assoc]

end Frame

/-! ## The tile bookkeeping is invariant -/

section Bookkeeping

theorem initialPieces_ids (rnd : Nat → ℚ) :
    (initialPieces rnd).map Piece.id = List.range TOTAL_PIECES := by
  unfold initialPieces
  rw [List.map_map]
  exact List.map_id _

theorem mem_initialPieces {rnd : Nat → ℚ} {p : Piece} (h : p ∈ initialPieces rnd) :
    ∃ i, i < TOTAL_PIECES ∧ p = makePiece rnd i := by
  unfold initialPieces at h
  rw [List.mem_map] at h
  obtain ⟨i, hi, rfl⟩ := h
  exact ⟨i, List.mem_range.mp hi, rfl⟩

theorem inv_mount {rnd : Nat → ℚ} {shuffled : List Piece}
    (hperm : shuffled.Perm (initialPieces rnd)) : Inv (mount shuffled) := by
  have hids : (shuffled.map Piece.id).Perm (List.range TOTAL_PIECES) := by
    rw [← initialPieces_ids rnd]
    exact hperm.map _
  refine ⟨?_, ?_, ?_, ?_⟩
  · exact hids.nodup_iff.mpr (List.nodup_range _)
  · intro p hp
    obtain ⟨i, hi, rfl⟩ := mem_initialPieces (hperm.mem_iff.mp hp)
    exact ⟨hi, rfl, rfl⟩
  · intro i
    show i ∈ (∅ : Finset Nat) ↔ i < TOTAL_PIECES ∧ i ∉ shuffled.map Piece.id
    rw [hids.mem_iff, List.mem_range]
    simp
  · intro d hd
    cases hd

theorem inv_handleDragStart {s : State} (h : Inv s) {piece : Piece}
    (hp : piece ∈ s.pieces) : Inv (handleDragStart s piece) := by
  refine ⟨h.nodup, h.shape, h.placed, ?_⟩
  intro d hd
  have : piece = d := Option.some.inj hd
  exact this ▸ hp

theorem inv_handleDrop {s : State} (h : Inv s) (row col : Nat) :
    Inv (handleDrop s row col) := by
  refine ⟨?_, ?_, ?_, ?_⟩
  · rw [handleDrop_pieces]
    cases hd : s.draggedPiece with
    | none => exact h.nodup
    | some d =>
      simp only
      split_ifs
      · exact h.nodup.sublist ((List.filter_sublist _).map _)
      · exact h.nodup
  · rw [handleDrop_pieces]
    cases hd : s.draggedPiece with
    | none => exact h.shape
    | some d =>
      simp only
      split_ifs
      · intro p hp
        exact h.shape p (List.mem_of_mem_filter hp)
      · exact h.shape
  · rw [handleDrop_pieces, handleDrop_placedPieces]
    cases hd : s.draggedPiece with
    | none => exact h.placed
    | some d =>
      simp only
      split_ifs
      · intro i
        have hdlt : d.id < TOTAL_PIECES := (h.shape d (h.dragged d hd)).1
        rw [Finset.mem_insert, h.placed i]
        simp only [List.mem_map, List.mem_filter, decide_eq_true_eq, not_exists, not_and]
        constructor
        · rintro (rfl | ⟨hlt, hni⟩)
          · exact ⟨hdlt, fun p hp hid => hp.2 hid⟩
          · exact ⟨hlt, fun p hp => hni p hp.1⟩
        · rintro ⟨hlt, hni⟩
          by_cases hid : i = d.id
          · exact Or.inl hid
          · refine Or.inr ⟨hlt, fun p hp hpi => hni p ⟨hp, ?_⟩ hpi⟩
            rw [hpi]
            exact hid
      · exact h.placed
  · intro d hd
    rw [handleDrop_draggedPiece] at hd
    cases hd

theorem inv_wait {s : State} (h : Inv s) (ms : Nat) : Inv (wait s ms) := by
  refine ⟨?_, ?_, ?_, ?_⟩
  · rw [wait_pieces]
    exact h.nodup
  · rw [wait_pieces]
    exact h.shape
  · rw [wait_pieces, wait_placedPieces]
    exact h.placed
  · rw [wait_pieces, wait_draggedPiece]
    exact h.dragged

theorem inv_step {s : State} (h : Inv s) {e : Event} (he : enabled s e = true) :
    Inv (step s e) := by
  cases e with
  | dragStart piece =>
    exact inv_handleDragStart h (of_decide_eq_true he)
  | dragOver => exact h
  | drop row col => exact inv_handleDrop h row col
  | wait ms => exact inv_wait h ms

theorem inv_run {s : State} (h : Inv s) {es : List Event}
    (hv : validFrom s es = true) : Inv (run s es) := by
  induction es generalizing s with
  | nil => exact h
  | cons e es ih =>
    rw [validFrom, Bool.and_eq_true] at hv
    exact ih (inv_step h hv.1) hv.2

theorem step_pieces_sublist (s : State) (e : Event) :
    List.Sublist (step s e).pieces s.pieces := by
  cases e with
  | dragStart piece => exact List.Sublist.refl _
  | dragOver => exact List.Sublist.refl _
  | drop row col =>
    show List.Sublist (handleDrop s row col).pieces s.pieces
    rw [handleDrop_pieces]
    cases hd : s.draggedPiece with
    | none => exact List.Sublist.refl _
    | some d =>
      simp only
      split_ifs
      · exact List.filter_sublist _
      · exact List.Sublist.refl _
  | wait ms =>
    show List.Sublist (wait s ms).pieces s.pieces
    rw [wait_pieces]

theorem run_pieces_sublist (s : State) (es : List Event) :
    List.Sublist (run s es).pieces s.pieces := by
  induction es generalizing s with
  | nil => exact List.Sublist.refl _
  | cons e es ih => exact (ih (step s e)).trans (step_pieces_sublist s e)

theorem step_placedPieces_subset (s : State) (e : Event) :
    s.placedPieces ⊆ (step s e).placedPieces := by
  cases e with
  | dragStart piece => exact Finset.Subset.refl _
  | dragOver => exact Finset.Subset.refl _
  | drop row col =>
    show s.placedPieces ⊆ (handleDrop s row col).placedPieces
    rw [handleDrop_placedPieces]
    cases hd : s.draggedPiece with
    | none => exact Finset.Subset.refl _
    | some d =>
      simp only
      split_ifs
      · exact Finset.subset_insert _ _
      · exact Finset.Subset.refl _
  | wait ms =>
    show s.placedPieces ⊆ (wait s ms).placedPieces
    rw [wait_placedPieces]

theorem inv_card_le {s : State} (h : Inv s) : s.placedPieces.card ≤ TOTAL_PIECES := by
  have hsub : s.placedPieces ⊆ Finset.range TOTAL_PIECES := by
    intro i hi
    exact Finset.mem_range.mpr ((h.placed i).mp hi).1
  simpa using Finset.card_le_card hsub

theorem demoLayout_perm : demoLayout.Perm (initialPieces zeroRnd) :=
  List.reverse_perm _

end Bookkeeping

/-! ## What the passing of time does -/

section Timers

theorem earliest_eq_none {l : List Timer} (h : earliest l = none) : l = [] := by
  cases l with
  | nil => rfl
  | cons t ts =>
    unfold earliest at h
    cases h' : earliest ts with
    | none => simp [h'] at h
    | some u =>
      rw [h'] at h
      simp only at h
      split_ifs at h

theorem earliest_spec {l : List Timer} {t : Timer} (h : earliest l = some t) :
    t ∈ l ∧ ∀ u ∈ l, t.due ≤ u.due := by
  induction l generalizing t with
  | nil => cases h
  | cons a as ih =>
    unfold earliest at h
    cases h' : earliest as with
    | none =>
      rw [h'] at h
      have hnil := earliest_eq_none h'
      subst hnil
      cases h
      simp
    | some u =>
      rw [h'] at h
      simp only at h
      obtain ⟨hu, hle⟩ := ih h'
      split_ifs at h with hc
      · cases h
        refine ⟨List.mem_cons_self _ _, ?_⟩
        intro v hv
        rcases List.mem_cons.mp hv with rfl | hv
        · exact le_rfl
        · exact le_trans hc (hle v hv)
      · cases h
        refine ⟨List.mem_cons_of_mem _ hu, ?_⟩
        intro v hv
        rcases List.mem_cons.mp hv with rfl | hv
        · omega
        · exact hle v hv

theorem timerWeight_pos (t : Timer) : 1 ≤ timerWeight t := by
  unfold timerWeight
  split <;> omega

theorem timerWeight_le (t : Timer) : timerWeight t ≤ 2 := by
  unfold timerWeight
  split <;> omega

theorem timersWeight_le (l : List Timer) : timersWeight l ≤ 2 * l.length := by
  induction l with
  | nil => simp [timersWeight]
  | cons t ts ih =>
    have := timerWeight_le t
    simp only [timersWeight, List.map_cons, List.sum_cons, List.length_cons] at ih ⊢
    omega

theorem timersWeight_eq_zero {l : List Timer} (h : timersWeight l ≤ 0) : l = [] := by
  cases l with
  | nil => rfl
  | cons t ts =>
    have := timerWeight_pos t
    simp only [timersWeight, List.map_cons, List.sum_cons] at h
    omega

theorem timersWeight_erase {l : List Timer} {t : Timer} (h : t ∈ l) :
    timersWeight (l.erase t) + timerWeight t = timersWeight l := by
  have hp : List.Perm l (t :: l.erase t) := List.perm_cons_erase h
  have := (hp.map timerWeight).sum_eq
  simp only [timersWeight, List.map_cons, List.sum_cons] at this ⊢
  omega

theorem timersWeight_append (l : List Timer) (t : Timer) :
    timersWeight (l ++ [t]) = timersWeight l + timerWeight t := by
  simp [timersWeight]

theorem mem_iff_eq_or_mem_erase {l : List Timer} {t : Timer} (h : t ∈ l) (u : Timer) :
    u ∈ l ↔ u = t ∨ u ∈ l.erase t := by
  rw [(List.perm_cons_erase h).mem_iff, List.mem_cons]

theorem waitSpec_idle (target : Nat) (s : State) (h : ∀ u ∈ s.timers, target < u.due) :
    WaitSpec target s { s with now := target } := by
  have hno : ∀ t ∈ s.timers, ¬ t.due ≤ target := fun t ht => by
    have := h t ht
    omega
  have hno3 : ∀ t ∈ s.timers, ¬ t.due + 3000 ≤ target := fun t ht => by
    have := h t ht
    omega
  refine ⟨rfl, rfl, ?_, ?_, ?_, ?_, ?_⟩
  · constructor
    · exact fun hh => Or.inl hh
    · rintro (hh | ⟨t, ht, -, hd⟩)
      · exact hh
      · exact absurd hd (hno t ht)
  · constructor
    · exact fun hh => Or.inl hh
    · rintro (hh | ⟨t, ht, -, hd⟩)
      · exact hh
      · exact absurd hd (hno t ht)
  · constructor
    · exact fun hh => Or.inl hh
    · rintro (hh | ⟨t, ht, -, hd⟩)
      · exact hh
      · exact absurd hd (hno t ht)
  · constructor
    · exact fun hh => Or.inl hh
    · rintro (hh | ⟨t, ht, -, hd⟩ | ⟨t, ht, -, hd⟩)
      · exact hh
      · exact absurd hd (hno t ht)
      · exact absurd hd (hno3 t ht)
  · intro u
    constructor
    · exact fun hu => Or.inl ⟨hu, h u hu⟩
    · rintro (⟨hu, -⟩ | ⟨t, ht, -, hd, -, -⟩)
      · exact hu
      · exact absurd hd (hno t ht)

theorem waitSpec_fire {target : Nat} {s r : State} {t : Timer} (ht : t ∈ s.timers)
    (hdue : t.due ≤ target)
    (h : WaitSpec target
      (fireTimer { s with now := t.due, timers := s.timers.erase t } t.action) r) :
    WaitSpec target s r := by
  have hmem := mem_iff_eq_or_mem_erase ht
  obtain ⟨h1, h2, h3, h4, h5, h6, h7⟩ := h
  obtain ⟨due, action⟩ := t
  cases action with
  | hint =>
    simp only [fireTimer] at h1 h2 h3 h4 h5 h6 h7
    refine ⟨h1, h2, ?_, ?_, ?_, ?_, ?_⟩
    · rw [h3]; simp only [hmem]; aesop
    · rw [h4]; simp only [hmem]; aesop
    · rw [h5]; simp only [hmem]; aesop
    · rw [h6]; simp only [hmem]; aesop
    · intro u; rw [h7]; simp only [hmem]
      constructor
      · rintro (⟨hu, hlt⟩ | ⟨v, hv, ha, hd, hd3, rfl⟩)
        · exact Or.inl ⟨Or.inr hu, hlt⟩
        · exact Or.inr ⟨v, Or.inr hv, ha, hd, hd3, rfl⟩
      · rintro (⟨rfl | hu, hlt⟩ | ⟨v, rfl | hv, ha, hd, hd3, rfl⟩)
        · simp only at hlt hdue; omega
        · exact Or.inl ⟨hu, hlt⟩
        · cases ha
        · exact Or.inr ⟨v, hv, ha, hd, hd3, rfl⟩
  | fullImage =>
    simp only [fireTimer, List.mem_append, List.mem_singleton] at h1 h2 h3 h4 h5 h6 h7
    refine ⟨h1, h2, ?_, ?_, ?_, ?_, ?_⟩
    · rw [h3]; simp only [hmem]; aesop
    · rw [h4]; simp only [hmem]; aesop
    · rw [h5]; simp only [hmem]; aesop
    · rw [h6]; simp only [hmem]
      constructor
      · rintro (hh | ⟨v, hv | rfl, ha, hd⟩ | ⟨v, hv | rfl, ha, hd⟩)
        · exact Or.inl hh
        · exact Or.inr (Or.inl ⟨v, Or.inr hv, ha, hd⟩)
        · exact Or.inr (Or.inr ⟨_, Or.inl rfl, rfl, hd⟩)
        · exact Or.inr (Or.inr ⟨v, Or.inr hv, ha, hd⟩)
        · cases ha
      · rintro (hh | ⟨v, rfl | hv, ha, hd⟩ | ⟨v, rfl | hv, ha, hd⟩)
        · exact Or.inl hh
        · cases ha
        · exact Or.inr (Or.inl ⟨v, Or.inl hv, ha, hd⟩)
        · exact Or.inr (Or.inl ⟨_, Or.inr rfl, rfl, hd⟩)
        · exact Or.inr (Or.inr ⟨v, Or.inl hv, ha, hd⟩)
    · intro u; rw [h7]; simp only [hmem]
      constructor
      · rintro (⟨hu | rfl, hlt⟩ | ⟨v, hv | rfl, ha, hd, hd3, rfl⟩)
        · exact Or.inl ⟨Or.inr hu, hlt⟩
        · exact Or.inr ⟨_, Or.inl rfl, rfl, hdue, hlt, rfl⟩
        · exact Or.inr ⟨v, Or.inr hv, ha, hd, hd3, rfl⟩
        · cases ha
      · rintro (⟨rfl | hu, hlt⟩ | ⟨v, rfl | hv, ha, hd, hd3, rfl⟩)
        · simp only at hlt hdue; omega
        · exact Or.inl ⟨Or.inl hu, hlt⟩
        · exact Or.inl ⟨Or.inr rfl, hd3⟩
        · exact Or.inr ⟨v, Or.inl hv, ha, hd, hd3, rfl⟩
  | overlay =>
    simp only [fireTimer] at h1 h2 h3 h4 h5 h6 h7
    refine ⟨h1, h2, ?_, ?_, ?_, ?_, ?_⟩
    · rw [h3]; simp only [hmem]; aesop
    · rw [h4]; simp only [hmem]; aesop
    · rw [h5]; simp only [hmem]; aesop
    · rw [h6]; simp only [hmem]; aesop
    · intro u; rw [h7]; simp only [hmem]
      constructor
      · rintro (⟨hu, hlt⟩ | ⟨v, hv, ha, hd, hd3, rfl⟩)
        · exact Or.inl ⟨Or.inr hu, hlt⟩
        · exact Or.inr ⟨v, Or.inr hv, ha, hd, hd3, rfl⟩
      · rintro (⟨rfl | hu, hlt⟩ | ⟨v, rfl | hv, ha, hd, hd3, rfl⟩)
        · simp only at hlt hdue; omega
        · exact Or.inl ⟨hu, hlt⟩
        · cases ha
        · exact Or.inr ⟨v, hv, ha, hd, hd3, rfl⟩
  | removeWrong i =>
    simp only [fireTimer] at h1 h2 h3 h4 h5 h6 h7
    refine ⟨h1, h2, ?_, ?_, ?_, ?_, ?_⟩
    · rw [h3]; simp only [hmem]; aesop
    · rw [h4]; simp only [hmem]; aesop
    · rw [h5]; simp only [hmem]; aesop
    · rw [h6]; simp only [hmem]; aesop
    · intro u; rw [h7]; simp only [hmem]
      constructor
      · rintro (⟨hu, hlt⟩ | ⟨v, hv, ha, hd, hd3, rfl⟩)
        · exact Or.inl ⟨Or.inr hu, hlt⟩
        · exact Or.inr ⟨v, Or.inr hv, ha, hd, hd3, rfl⟩
      · rintro (⟨rfl | hu, hlt⟩ | ⟨v, rfl | hv, ha, hd, hd3, rfl⟩)
        · simp only at hlt hdue; omega
        · exact Or.inl ⟨hu, hlt⟩
        · cases ha
        · exact Or.inr ⟨v, hv, ha, hd, hd3, rfl⟩

theorem advanceTo_spec (target : Nat) :
    ∀ (fuel : Nat) (s : State), timersWeight s.timers ≤ fuel →
      WaitSpec target s (advanceTo target fuel s) := by
  intro fuel
  induction fuel with
  | zero =>
    intro s hw
    have hnil := timersWeight_eq_zero hw
    have := waitSpec_idle target s (by rw [hnil]; intro u hu; cases hu)
    exact this
  | succ n ih =>
    intro s hw
    unfold advanceTo
    cases he : earliest s.timers with
    | none =>
      have hnil := earliest_eq_none he
      exact waitSpec_idle target s (by rw [hnil]; intro u hu; cases hu)
    | some t =>
      obtain ⟨ht, hle⟩ := earliest_spec he
      simp only
      split_ifs with hd
      · refine waitSpec_fire ht hd (ih _ ?_)
        have hwe := timersWeight_erase ht
        obtain ⟨due, action⟩ := t
        cases action <;>
          simp only [fireTimer, timersWeight_append, timerWeight] at hwe ⊢ <;> omega
      · refine waitSpec_idle target s ?_
        intro u hu
        have := hle u hu
        omega

theorem wait_spec (s : State) (ms : Nat) : WaitSpec (s.now + ms) s (wait s ms) :=
  advanceTo_spec _ _ s (timersWeight_le _)

end Timers

/-! ## When a drop starts the completion sequence -/

section Starting

theorem startedBy_iff (s : State) (row col : Nat) :
    startedBy s row col = true ↔
      ∃ d, s.draggedPiece = some d ∧ d.correctRow = row ∧ d.correctCol = col ∧
        (insert d.id s.placedPieces).card = TOTAL_PIECES := by
  unfold startedBy handleDrop
  rw [decide_eq_true_iff]
  cases hd : s.draggedPiece with
  | none => simp
  | some d =>
    simp only
    split_ifs with hc hfull hany
    · exact ⟨fun _ => ⟨d, rfl, hc.1, hc.2, hfull⟩, fun _ => rfl⟩
    · constructor
      · intro heq
        simp at heq
      · rintro ⟨d', hd', -, -, hf⟩
        cases hd'
        exact absurd hf hfull
    · constructor
      · intro heq
        simp at heq
      · rintro ⟨d', hd', hr, hcc, -⟩
        cases hd'
        exact absurd ⟨hr, hcc⟩ hc
    · constructor
      · intro heq
        simp at heq
      · rintro ⟨d', hd', hr, hcc, -⟩
        cases hd'
        exact absurd ⟨hr, hcc⟩ hc

theorem started_gridDisappearing {s : State} {row col : Nat}
    (h : startedBy s row col = true) : (handleDrop s row col).gridDisappearing = true := by
  obtain ⟨d, hd, hr, hc, hfull⟩ := (startedBy_iff s row col).mp h
  unfold handleDrop
  simp [hd, hr, hc, hfull]

theorem started_iff_last_tile {s : State} (h : Inv s) (row col : Nat) :
    startedBy s row col = true ↔
      s.placedPieces.card = 15 ∧ (handleDrop s row col).placedPieces.card = 16 := by
  rw [startedBy_iff, handleDrop_placedPieces]
  cases hd : s.draggedPiece with
  | none =>
    simp only
    constructor
    · rintro ⟨d, hd', -⟩
      cases hd'
    · rintro ⟨h1, h2⟩
      omega
  | some d =>
    have hnot : d.id ∉ s.placedPieces := by
      rw [h.placed]
      intro hh
      exact hh.2 (List.mem_map_of_mem _ (h.dragged d hd))
    have hcard := Finset.card_insert_of_not_mem hnot
    simp only
    constructor
    · rintro ⟨d', hd', hr, hc, hfull⟩
      cases hd'
      rw [if_pos ⟨hr, hc⟩]
      have : TOTAL_PIECES = 16 := rfl
      omega
    · rintro ⟨h1, h2⟩
      split_ifs at h2 with hc
      · exact ⟨d, rfl, hc.1, hc.2, h2⟩
      · omega

theorem step_card_le (s : State) (e : Event) :
    (step s e).placedPieces.card ≤ s.placedPieces.card + 1 := by
  cases e with
  | dragStart piece => exact Nat.le_succ _
  | dragOver => exact Nat.le_succ _
  | drop row col =>
    show (handleDrop s row col).placedPieces.card ≤ _
    rw [handleDrop_placedPieces]
    cases hd : s.draggedPiece with
    | none => exact Nat.le_succ _
    | some d =>
      simp only
      split_ifs
      · exact Finset.card_insert_le _ _
      · exact Nat.le_succ _
  | wait ms =>
    show (wait s ms).placedPieces.card ≤ _
    rw [wait_placedPieces]
    exact Nat.le_succ _

theorem run_card_mono (s : State) (es : List Event) :
    s.placedPieces.card ≤ (run s es).placedPieces.card := by
  induction es generalizing s with
  | nil => exact le_rfl
  | cons e es ih =>
    exact le_trans (Finset.card_le_card (step_placedPieces_subset s e)) (ih (step s e))

theorem countStarts_eq {s : State} (h : Inv s) {es : List Event}
    (hv : validFrom s es = true) :
    countStarts s es =
      if s.placedPieces.card < TOTAL_PIECES ∧ (run s es).placedPieces.card = TOTAL_PIECES
      then 1 else 0 := by
  have h16 : TOTAL_PIECES = 16 := rfl
  induction es generalizing s with
  | nil =>
    simp only [countStarts, run]
    rw [if_neg]
    omega
  | cons e es ih =>
    rw [validFrom, Bool.and_eq_true] at hv
    have hinv := inv_step h hv.1
    have hrec := ih hinv hv.2
    have hmono := run_card_mono (step s e) es
    have hle := inv_card_le (inv_run hinv hv.2)
    have hstep := step_card_le s e
    have hsub := Finset.card_le_card (step_placedPieces_subset s e)
    cases e with
    | drop row col =>
      simp only [countStarts, run]
      simp only [step] at hrec hmono hle hstep hsub ⊢
      rw [hrec]
      by_cases hst : startedBy s row col = true
      · obtain ⟨h1, h2⟩ := (started_iff_last_tile h row col).mp hst
        rw [if_pos hst, if_neg (by omega), if_pos (by omega)]
      · rw [if_neg hst]
        have hnot := mt (started_iff_last_tile h row col).mpr hst
        by_cases hc : s.placedPieces.card < TOTAL_PIECES ∧
            (run (handleDrop s row col) es).placedPieces.card = TOTAL_PIECES
        · rw [if_pos hc, if_pos]
          refine ⟨?_, hc.2⟩
          by_contra hcon
          apply hnot
          omega
        · rw [if_neg hc, if_neg]
          · intro hcon
            exact hc ⟨by omega, hcon.2⟩
    | dragStart piece =>
      simp only [countStarts, run]
      rw [hrec]
      rfl
    | dragOver =>
      simp only [countStarts, run]
      rw [hrec]
      rfl
    | wait ms =>
      have hsame : (step s (Event.wait ms)).placedPieces = s.placedPieces :=
        wait_placedPieces s ms
      simp only [countStarts, run]
      rw [hrec, hsame]

theorem handleDrop_timers_cases (s : State) (row col : Nat) :
    (handleDrop s row col).timers = s.timers ∨
    (startedBy s row col = true ∧
      (handleDrop s row col).timers = s.timers ++ [⟨s.now + 1500, TimerAction.fullImage⟩]) ∨
    ∃ i, (handleDrop s row col).timers =
      s.timers ++ [⟨s.now + 500, TimerAction.removeWrong i⟩] := by
  by_cases hst : startedBy s row col = true
  · exact Or.inr (Or.inl ⟨hst, of_decide_eq_true hst⟩)
  · unfold handleDrop
    cases hd : s.draggedPiece with
    | none => exact Or.inl rfl
    | some d =>
      simp only
      split_ifs with hc hfull hany
      · exact absurd ((startedBy_iff s row col).mpr ⟨d, hd, hc.1, hc.2, hfull⟩) hst
      · exact Or.inl rfl
      · exact Or.inr (Or.inr ⟨d.id, rfl⟩)
      · exact Or.inl rfl

theorem handleDrop_flags_of_not_started {s : State} {row col : Nat}
    (hst : ¬ startedBy s row col = true) :
    (handleDrop s row col).gridDisappearing = s.gridDisappearing ∧
    (handleDrop s row col).showingFullImage = s.showingFullImage ∧
    (handleDrop s row col).isComplete = s.isComplete ∧
    (handleDrop s row col).showOverlay = s.showOverlay := by
  unfold handleDrop
  cases hd : s.draggedPiece with
  | none => exact ⟨rfl, rfl, rfl, rfl⟩
  | some d =>
    simp only
    split_ifs with hc hfull hany
    · exact absurd ((startedBy_iff s row col).mpr ⟨d, hd, hc.1, hc.2, hfull⟩) hst
    · exact ⟨rfl, rfl, rfl, rfl⟩
    · exact ⟨rfl, rfl, rfl, rfl⟩
    · exact ⟨rfl, rfl, rfl, rfl⟩

theorem handleDrop_flags_of_started {s : State} {row col : Nat}
    (hst : startedBy s row col = true) :
    (handleDrop s row col).gridDisappearing = true ∧
    (handleDrop s row col).showingFullImage = s.showingFullImage ∧
    (handleDrop s row col).isComplete = s.isComplete ∧
    (handleDrop s row col).showOverlay = s.showOverlay := by
  obtain ⟨d, hd, hr, hc, hfull⟩ := (startedBy_iff s row col).mp hst
  unfold handleDrop
  simp [hd, hr, hc, hfull]

theorem step_now_le (s : State) (e : Event) : s.now ≤ (step s e).now := by
  cases e with
  | dragStart piece => exact le_rfl
  | dragOver => exact le_rfl
  | drop row col =>
    show s.now ≤ (handleDrop s row col).now
    rw [handleDrop_now]
  | wait ms =>
    show s.now ≤ (wait s ms).now
    rw [wait_now]
    exact Nat.le_add_right _ _

theorem run_now_le (s : State) (es : List Event) : s.now ≤ (run s es).now := by
  induction es generalizing s with
  | nil => exact le_rfl
  | cons e es ih => exact le_trans (step_now_le s e) (ih (step s e))

end Starting

/-! ## The hint timer -/

section Hint

theorem hintInv_mount (shuffled : List Piece) : HintInv (mount shuffled) := by
  refine ⟨?_, ?_, ?_⟩
  · intro t ht
    simp only [mount, List.mem_singleton] at ht
    subst ht
    show 0 < 20000
    omega
  · intro t ht _
    simp only [mount, List.mem_singleton] at ht
    subst ht
    rfl
  · intro _
    exact ⟨⟨20000, TimerAction.hint⟩, List.mem_singleton.mpr rfl, rfl⟩

theorem hintInv_handleDrop {s : State} (h : HintInv s) (row col : Nat) :
    HintInv (handleDrop s row col) := by
  have hnow := handleDrop_now s row col
  rcases handleDrop_timers_cases s row col with ht | ⟨-, ht⟩ | ⟨i, ht⟩
  · refine ⟨?_, ?_, ?_⟩
    · intro t hmem
      rw [ht] at hmem
      rw [hnow]
      exact h.ahead t hmem
    · intro t hmem
      rw [ht] at hmem
      exact h.due t hmem
    · intro hlt
      rw [hnow] at hlt
      rw [ht]
      exact h.pending hlt
  · refine ⟨?_, ?_, ?_⟩
    · intro t hmem
      rw [ht, List.mem_append, List.mem_singleton] at hmem
      rw [hnow]
      rcases hmem with hmem | rfl
      · exact h.ahead t hmem
      · show s.now < s.now + 1500
        omega
    · intro t hmem ha
      rw [ht, List.mem_append, List.mem_singleton] at hmem
      rcases hmem with hmem | rfl
      · exact h.due t hmem ha
      · cases ha
    · intro hlt
      rw [hnow] at hlt
      obtain ⟨t, hmem, ha⟩ := h.pending hlt
      exact ⟨t, by rw [ht]; exact List.mem_append_left _ hmem, ha⟩
  · refine ⟨?_, ?_, ?_⟩
    · intro t hmem
      rw [ht, List.mem_append, List.mem_singleton] at hmem
      rw [hnow]
      rcases hmem with hmem | rfl
      · exact h.ahead t hmem
      · show s.now < s.now + 500
        omega
    · intro t hmem ha
      rw [ht, List.mem_append, List.mem_singleton] at hmem
      rcases hmem with hmem | rfl
      · exact h.due t hmem ha
      · cases ha
    · intro hlt
      rw [hnow] at hlt
      obtain ⟨t, hmem, ha⟩ := h.pending hlt
      exact ⟨t, by rw [ht]; exact List.mem_append_left _ hmem, ha⟩

theorem wait_timersAhead (s : State) (ms : Nat) : timersAhead (wait s ms) := by
  have hw := wait_spec s ms
  intro u hu
  rw [hw.now]
  rcases (hw.timers u).mp hu with ⟨-, hlt⟩ | ⟨t, -, -, -, hlt, rfl⟩
  · exact hlt
  · exact hlt

theorem hintInv_wait {s : State} (h : HintInv s) (ms : Nat) : HintInv (wait s ms) := by
  have hw := wait_spec s ms
  refine ⟨wait_timersAhead s ms, ?_, ?_⟩
  · intro u hu ha
    rcases (hw.timers u).mp hu with ⟨hmem, -⟩ | ⟨t, -, -, -, -, rfl⟩
    · exact h.due u hmem ha
    · cases ha
  · intro hlt
    rw [hw.now] at hlt
    obtain ⟨t, hmem, ha⟩ := h.pending (by omega)
    refine ⟨t, (hw.timers t).mpr (Or.inl ⟨hmem, ?_⟩), ha⟩
    rw [h.due t hmem ha]
    exact hlt

theorem hintInv_step {s : State} (h : HintInv s) (e : Event) : HintInv (step s e) := by
  cases e with
  | dragStart piece => exact ⟨h.ahead, h.due, h.pending⟩
  | dragOver => exact h
  | drop row col => exact hintInv_handleDrop h row col
  | wait ms => exact hintInv_wait h ms

theorem hintInv_run {s : State} (h : HintInv s) (es : List Event) : HintInv (run s es) := by
  induction es generalizing s with
  | nil => exact h
  | cons e es ih => exact ih (hintInv_step h e)

theorem wait_showHint {s : State} (h : HintInv s) (ms : Nat) :
    (wait s ms).showHint = true ↔
      s.showHint = true ∨ (s.now < 20000 ∧ 20000 ≤ s.now + ms) := by
  rw [(wait_spec s ms).showHint]
  constructor
  · rintro (hh | ⟨t, hmem, ha, hd⟩)
    · exact Or.inl hh
    · have h1 := h.due t hmem ha
      have h2 := h.ahead t hmem
      exact Or.inr ⟨by omega, by omega⟩
  · rintro (hh | ⟨h1, h2⟩)
    · exact Or.inl hh
    · obtain ⟨t, hmem, ha⟩ := h.pending h1
      refine Or.inr ⟨t, hmem, ha, ?_⟩
      rw [h.due t hmem ha]
      exact h2

theorem showHint_without_drag {s : State} (h : HintInv s) {es : List Event}
    (hno : ∀ e ∈ es, isDragStart e = false) :
    (run s es).showHint = true ↔
      s.showHint = true ∨ (s.now < 20000 ∧ 20000 ≤ (run s es).now) := by
  induction es generalizing s with
  | nil =>
    simp only [run]
    constructor
    · exact fun hh => Or.inl hh
    · rintro (hh | ⟨h1, h2⟩)
      · exact hh
      · omega
  | cons e es ih =>
    have hrest : ∀ e' ∈ es, isDragStart e' = false :=
      fun e' he' => hno e' (List.mem_cons_of_mem _ he')
    have hrec := ih (hintInv_step h e) hrest
    have hmono := run_now_le (step s e) es
    have he := hno e (List.mem_cons_self _ _)
    simp only [run]
    rw [hrec]
    cases e with
    | dragStart piece => cases he
    | dragOver => exact Iff.rfl
    | drop row col =>
      have h1 : (step s (Event.drop row col)).showHint = s.showHint :=
        handleDrop_showHint s row col
      have h2 : (step s (Event.drop row col)).now = s.now := handleDrop_now s row col
      rw [h1, h2]
    | wait ms =>
      have h1 : (step s (Event.wait ms)).showHint = true ↔ _ := wait_showHint h ms
      have h2 : (step s (Event.wait ms)).now = s.now + ms := wait_now s ms
      rw [h1]
      rw [h2] at hmono ⊢
      constructor
      · rintro ((hh | ⟨ha, hb⟩) | ⟨ha, hb⟩)
        · exact Or.inl hh
        · exact Or.inr ⟨ha, by omega⟩
        · exact Or.inr ⟨by omega, hb⟩
      · rintro (hh | ⟨ha, hb⟩)
        · exact Or.inl (Or.inl hh)
        · by_cases hc : 20000 ≤ s.now + ms
          · exact Or.inl (Or.inr ⟨ha, hc⟩)
          · exact Or.inr ⟨by omega, hb⟩

theorem showHint_stays_false {s : State} (h : HintInv s) (hnow : 20000 ≤ s.now)
    (hfalse : s.showHint = false) (es : List Event) : (run s es).showHint = false := by
  induction es generalizing s with
  | nil => exact hfalse
  | cons e es ih =>
    refine ih (hintInv_step h e) (le_trans hnow (step_now_le s e)) ?_
    cases e with
    | dragStart piece => rfl
    | dragOver => exact hfalse
    | drop row col =>
      show (handleDrop s row col).showHint = false
      rw [handleDrop_showHint]
      exact hfalse
    | wait ms =>
      have hiff := wait_showHint h ms
      cases hv : (wait s ms).showHint with
      | false => exact hv
      | true =>
        rcases hiff.mp hv with hh | ⟨ha, -⟩
        · rw [hfalse] at hh
          cases hh
        · omega

end Hint

/-! ## The completion sequence -/

section Sequence

theorem playing_mount (shuffled : List Piece) : Playing (mount shuffled) := by
  refine ⟨(hintInv_mount shuffled).ahead, rfl, rfl, rfl, rfl, ?_⟩
  intro t ht
  simp only [mount, List.mem_singleton] at ht
  subst ht
  exact ⟨fun h => (by cases h), fun h => (by cases h)⟩

theorem playing_handleDrop {s : State} (h : Playing s) {row col : Nat}
    (hst : ¬ startedBy s row col = true) : Playing (handleDrop s row col) := by
  obtain ⟨f1, f2, f3, f4⟩ := handleDrop_flags_of_not_started hst
  have hnow := handleDrop_now s row col
  have htimers : ∀ t ∈ (handleDrop s row col).timers,
      s.now < t.due ∧ t.action ≠ TimerAction.fullImage ∧ t.action ≠ TimerAction.overlay := by
    intro t hmem
    rcases handleDrop_timers_cases s row col with ht | ⟨hs, -⟩ | ⟨i, ht⟩
    · rw [ht] at hmem
      exact ⟨h.ahead t hmem, h.noTimer t hmem⟩
    · exact absurd hs hst
    · rw [ht, List.mem_append, List.mem_singleton] at hmem
      rcases hmem with hmem | rfl
      · exact ⟨h.ahead t hmem, h.noTimer t hmem⟩
      · refine ⟨?_, fun hh => (by cases hh), fun hh => (by cases hh)⟩
        show s.now < s.now + 500
        omega
  refine ⟨?_, ?_, ?_, ?_, ?_, ?_⟩
  · intro t hmem
    rw [hnow]
    exact (htimers t hmem).1
  · rw [f1]
    exact h.gridDisappearing
  · rw [f2]
    exact h.showingFullImage
  · rw [f3]
    exact h.isComplete
  · rw [f4]
    exact h.showOverlay
  · intro t hmem
    exact (htimers t hmem).2

theorem playing_wait {s : State} (h : Playing s) (ms : Nat) : Playing (wait s ms) := by
  have hw := wait_spec s ms
  have hnone : ∀ t ∈ s.timers, ¬ t.action = TimerAction.fullImage :=
    fun t ht => (h.noTimer t ht).1
  have hnone' : ∀ t ∈ s.timers, ¬ t.action = TimerAction.overlay :=
    fun t ht => (h.noTimer t ht).2
  refine ⟨wait_timersAhead s ms, ?_, ?_, ?_, ?_, ?_⟩
  · rw [hw.gridDisappearing]
    exact h.gridDisappearing
  · cases hv : (wait s ms).showingFullImage with
    | false => rfl
    | true =>
      rcases hw.showingFullImage.mp hv with hh | ⟨t, ht, ha, -⟩
      · rw [h.showingFullImage] at hh
        cases hh
      · exact absurd ha (hnone t ht)
  · cases hv : (wait s ms).isComplete with
    | false => rfl
    | true =>
      rcases hw.isComplete.mp hv with hh | ⟨t, ht, ha, -⟩
      · rw [h.isComplete] at hh
        cases hh
      · exact absurd ha (hnone t ht)
  · cases hv : (wait s ms).showOverlay with
    | false => rfl
    | true =>
      rcases hw.showOverlay.mp hv with hh | ⟨t, ht, ha, -⟩ | ⟨t, ht, ha, -⟩
      · rw [h.showOverlay] at hh
        cases hh
      · exact absurd ha (hnone' t ht)
      · exact absurd ha (hnone t ht)
  · intro u hu
    rcases (hw.timers u).mp hu with ⟨hmem, -⟩ | ⟨t, ht, ha, -⟩
    · exact h.noTimer u hmem
    · exact absurd ha (hnone t ht)

/-- Before the last tile is placed the completion sequence has not started. -/
theorem playing_run {s : State} (hinv : Inv s)
    (hplay : s.placedPieces.card < TOTAL_PIECES → Playing s) {es : List Event}
    (hv : validFrom s es = true) :
    (run s es).placedPieces.card < TOTAL_PIECES → Playing (run s es) := by
  induction es generalizing s with
  | nil => exact hplay
  | cons e es ih =>
    rw [validFrom, Bool.and_eq_true] at hv
    refine ih (inv_step hinv hv.1) ?_ hv.2
    intro hlt
    have hsub := Finset.card_le_card (step_placedPieces_subset s e)
    have hp := hplay (by omega)
    cases e with
    | dragStart piece =>
      exact ⟨hp.ahead, hp.gridDisappearing, hp.showingFullImage, hp.isComplete,
        hp.showOverlay, hp.noTimer⟩
    | dragOver => exact hp
    | drop row col =>
      refine playing_handleDrop hp ?_
      intro hst
      have := ((started_iff_last_tile hinv row col).mp hst).2
      have h16 : TOTAL_PIECES = 16 := rfl
      have hlt' : (handleDrop s row col).placedPieces.card < TOTAL_PIECES := hlt
      omega
    | wait ms => exact playing_wait hp ms

theorem inv_pieces_nil {s : State} (h : Inv s) (hfull : s.placedPieces.card = TOTAL_PIECES) :
    s.pieces = [] := by
  have hsub : s.placedPieces ⊆ Finset.range TOTAL_PIECES := by
    intro i hi
    exact Finset.mem_range.mpr ((h.placed i).mp hi).1
  have heq : s.placedPieces = Finset.range TOTAL_PIECES :=
    Finset.eq_of_subset_of_card_le hsub (by simp [hfull])
  rw [List.eq_nil_iff_forall_not_mem]
  intro p hp
  have hlt := (h.shape p hp).1
  have hin : p.id ∈ s.placedPieces := by
    rw [heq]
    exact Finset.mem_range.mpr hlt
  exact ((h.placed p.id).mp hin).2 (List.mem_map_of_mem _ hp)

theorem sequenced_start {s : State} (hinv : Inv s) (hplay : Playing s) {row col : Nat}
    (hst : startedBy s row col = true) : Sequenced s.now (handleDrop s row col) := by
  obtain ⟨f1, f2, f3, f4⟩ := handleDrop_flags_of_started hst
  have ht : (handleDrop s row col).timers =
      s.timers ++ [⟨s.now + 1500, TimerAction.fullImage⟩] := of_decide_eq_true hst
  have hfull := ((started_iff_last_tile hinv row col).mp hst).2
  refine ⟨inv_pieces_nil (inv_handleDrop hinv row col) hfull, handleDrop_draggedPiece s row col,
    f1, ?_, Or.inl ⟨?_, ?_, ?_, ?_, ?_, ?_⟩⟩
  · intro t hmem
    rw [handleDrop_now]
    rw [ht, List.mem_append, List.mem_singleton] at hmem
    rcases hmem with hmem | rfl
    · exact hplay.ahead t hmem
    · show s.now < s.now + 1500
      omega
  · rw [f2]
    exact hplay.showingFullImage
  · rw [f3]
    exact hplay.isComplete
  · rw [f4]
    exact hplay.showOverlay
  · exact ⟨_, by rw [ht]; exact List.mem_append_right _ (List.mem_singleton.mpr rfl), rfl⟩
  · intro t hmem ha
    rw [ht, List.mem_append, List.mem_singleton] at hmem
    rcases hmem with hmem | rfl
    · exact absurd ha (hplay.noTimer t hmem).1
    · rfl
  · intro t hmem ha
    rw [ht, List.mem_append, List.mem_singleton] at hmem
    rcases hmem with hmem | rfl
    · exact absurd ha (hplay.noTimer t hmem).2
    · cases ha

theorem sequenced_wait {T : Nat} {s : State} (h : Sequenced T s) (ms : Nat) :
    Sequenced T (wait s ms) := by
  have hw := wait_spec s ms
  have hnow := hw.now
  refine ⟨by rw [wait_pieces]; exact h.pieces, by rw [wait_draggedPiece]; exact h.draggedPiece,
    by rw [hw.gridDisappearing]; exact h.gridDisappearing, wait_timersAhead s ms, ?_⟩
  rcases h.phase with ⟨a1, a2, a3, ⟨tF, hF, haF⟩, a5, a6⟩ | ⟨b0, b1, b2, b3, ⟨tO, hO, haO⟩, b5, b6⟩ |
    ⟨c0, c1, c2, c3, c4⟩
  · have hdF := a5 tF hF haF
    by_cases hlt : s.now + ms < T + 1500
    · refine Or.inl ⟨?_, ?_, ?_, ?_, ?_, ?_⟩
      · rw [Bool.eq_false_iff]
        intro hv
        rcases hw.showingFullImage.mp hv with hh | ⟨t, ht, ha, hd⟩
        · rw [a1] at hh
          cases hh
        · have := a5 t ht ha
          omega
      · rw [Bool.eq_false_iff]
        intro hv
        rcases hw.isComplete.mp hv with hh | ⟨t, ht, ha, hd⟩
        · rw [a2] at hh
          cases hh
        · have := a5 t ht ha
          omega
      · rw [Bool.eq_false_iff]
        intro hv
        rcases hw.showOverlay.mp hv with hh | ⟨t, ht, ha, hd⟩ | ⟨t, ht, ha, hd⟩
        · rw [a3] at hh
          cases hh
        · exact a6 t ht ha
        · have := a5 t ht ha
          omega
      · exact ⟨tF, (hw.timers tF).mpr (Or.inl ⟨hF, by omega⟩), haF⟩
      · intro u hu ha
        rcases (hw.timers u).mp hu with ⟨hmem, -⟩ | ⟨t, -, -, -, -, rfl⟩
        · exact a5 u hmem ha
        · cases ha
      · intro u hu ha
        rcases (hw.timers u).mp hu with ⟨hmem, -⟩ | ⟨t, ht, hat, hd, -, -⟩
        · exact a6 u hmem ha
        · have := a5 t ht hat
          omega
    · by_cases hlt' : s.now + ms < T + 4500
      · refine Or.inr (Or.inl ⟨by omega, ?_, ?_, ?_, ?_, ?_, ?_⟩)
        · exact hw.showingFullImage.mpr (Or.inr ⟨tF, hF, haF, by omega⟩)
        · exact hw.isComplete.mpr (Or.inr ⟨tF, hF, haF, by omega⟩)
        · rw [Bool.eq_false_iff]
          intro hv
          rcases hw.showOverlay.mp hv with hh | ⟨t, ht, ha, hd⟩ | ⟨t, ht, ha, hd⟩
          · rw [a3] at hh
            cases hh
          · exact a6 t ht ha
          · have := a5 t ht ha
            omega
        · exact ⟨⟨tF.due + 3000, TimerAction.overlay⟩,
            (hw.timers _).mpr (Or.inr ⟨tF, hF, haF, by omega, by omega, rfl⟩), rfl⟩
        · intro u hu ha
          rcases (hw.timers u).mp hu with ⟨hmem, -⟩ | ⟨t, ht, hat, -, -, rfl⟩
          · exact absurd ha (a6 u hmem)
          · have := a5 t ht hat
            show t.due + 3000 = T + 4500
            omega
        · intro u hu ha
          rcases (hw.timers u).mp hu with ⟨hmem, hd⟩ | ⟨t, -, -, -, -, rfl⟩
          · have := a5 u hmem ha
            omega
          · cases ha
      · refine Or.inr (Or.inr ⟨by omega, ?_, ?_, ?_, ?_⟩)
        · exact hw.showingFullImage.mpr (Or.inr ⟨tF, hF, haF, by omega⟩)
        · exact hw.isComplete.mpr (Or.inr ⟨tF, hF, haF, by omega⟩)
        · exact hw.showOverlay.mpr (Or.inr (Or.inr ⟨tF, hF, haF, by omega⟩))
        · intro u hu
          rcases (hw.timers u).mp hu with ⟨hmem, hd⟩ | ⟨t, ht, hat, -, hd, rfl⟩
          · refine ⟨fun ha => ?_, a6 u hmem⟩
            have := a5 u hmem ha
            omega
          · have := a5 t ht hat
            omega
  · have hdO := b5 tO hO haO
    by_cases hlt' : s.now + ms < T + 4500
    · refine Or.inr (Or.inl ⟨by omega, ?_, ?_, ?_, ?_, ?_, ?_⟩)
      · exact hw.showingFullImage.mpr (Or.inl b1)
      · exact hw.isComplete.mpr (Or.inl b2)
      · rw [Bool.eq_false_iff]
        intro hv
        rcases hw.showOverlay.mp hv with hh | ⟨t, ht, ha, hd⟩ | ⟨t, ht, ha, hd⟩
        · rw [b3] at hh
          cases hh
        · have := b5 t ht ha
          omega
        · exact b6 t ht ha
      · exact ⟨tO, (hw.timers tO).mpr (Or.inl ⟨hO, by omega⟩), haO⟩
      · intro u hu ha
        rcases (hw.timers u).mp hu with ⟨hmem, -⟩ | ⟨t, ht, hat, -, -, -⟩
        · exact b5 u hmem ha
        · exact absurd hat (b6 t ht)
      · intro u hu ha
        rcases (hw.timers u).mp hu with ⟨hmem, -⟩ | ⟨t, ht, hat, -, -, -⟩
        · exact b6 u hmem ha
        · exact absurd hat (b6 t ht)
    · refine Or.inr (Or.inr ⟨by omega, ?_, ?_, ?_, ?_⟩)
      · exact hw.showingFullImage.mpr (Or.inl b1)
      · exact hw.isComplete.mpr (Or.inl b2)
      · exact hw.showOverlay.mpr (Or.inr (Or.inl ⟨tO, hO, haO, by omega⟩))
      · intro u hu
        rcases (hw.timers u).mp hu with ⟨hmem, hd⟩ | ⟨t, ht, hat, -, -, -⟩
        · refine ⟨b6 u hmem, fun ha => ?_⟩
          have := b5 u hmem ha
          omega
        · exact absurd hat (b6 t ht)
  · refine Or.inr (Or.inr ⟨by omega, ?_, ?_, ?_, ?_⟩)
    · exact hw.showingFullImage.mpr (Or.inl c1)
    · exact hw.isComplete.mpr (Or.inl c2)
    · exact hw.showOverlay.mpr (Or.inl c3)
    · intro u hu
      rcases (hw.timers u).mp hu with ⟨hmem, -⟩ | ⟨t, ht, hat, -, -, -⟩
      · exact c4 u hmem
      · exact absurd hat (c4 t ht).1

theorem sequenced_step {T : Nat} {s : State} (h : Sequenced T s) {e : Event}
    (he : enabled s e = true) : Sequenced T (step s e) := by
  cases e with
  | dragStart piece =>
    have hmem : piece ∈ s.pieces := of_decide_eq_true he
    rw [h.pieces] at hmem
    cases hmem
  | dragOver => exact h
  | drop row col =>
    have hsame : handleDrop s row col = s := by
      unfold handleDrop
      rw [h.draggedPiece]
    show Sequenced T (handleDrop s row col)
    rw [hsame]
    exact h
  | wait ms => exact sequenced_wait h ms

theorem sequenced_run {T : Nat} {s : State} (h : Sequenced T s) {es : List Event}
    (hv : validFrom s es = true) : Sequenced T (run s es) := by
  induction es generalizing s with
  | nil => exact h
  | cons e es ih =>
    rw [validFrom, Bool.and_eq_true] at hv
    exact ih (sequenced_step h hv.1) hv.2

theorem sequenced_flags {T : Nat} {s : State} (h : Sequenced T s) :
    (s.now < T + 1500 → s.gridDisappearing = true ∧ s.showingFullImage = false ∧
      s.isComplete = false ∧ s.showOverlay = false) ∧
    (T + 1500 ≤ s.now → s.now < T + 4500 → s.gridDisappearing = true ∧
      s.showingFullImage = true ∧ s.isComplete = true ∧ s.showOverlay = false) ∧
    (T + 4500 ≤ s.now → s.gridDisappearing = true ∧ s.showingFullImage = true ∧
      s.isComplete = true ∧ s.showOverlay = true) := by
  rcases h.phase with ⟨a1, a2, a3, ⟨tF, hF, haF⟩, a5, a6⟩ | ⟨b0, b1, b2, b3, ⟨tO, hO, haO⟩, b5, b6⟩ |
    ⟨c0, c1, c2, c3, c4⟩
  · have h1 := a5 tF hF haF
    have h2 := h.ahead tF hF
    refine ⟨fun _ => ⟨h.gridDisappearing, a1, a2, a3⟩, fun hh => ?_, fun hh => ?_⟩ <;> omega
  · have h1 := b5 tO hO haO
    have h2 := h.ahead tO hO
    refine ⟨fun hh => ?_, fun _ _ => ⟨h.gridDisappearing, b1, b2, b3⟩, fun hh => ?_⟩ <;> omega
  · refine ⟨fun hh => ?_, fun _ hh => ?_, fun _ => ⟨h.gridDisappearing, c1, c2, c3⟩⟩ <;> omega

theorem sequenced_phaseFlags {T : Nat} {s : State} (h : Sequenced T s) :
    (s.now < T + 1500 → phaseFlags s = (true, false, false, false)) ∧
    (T + 1500 ≤ s.now → s.now < T + 4500 → phaseFlags s = (true, true, true, false)) ∧
    (T + 4500 ≤ s.now → phaseFlags s = (true, true, true, true)) := by
  obtain ⟨hA, hB, hC⟩ := sequenced_flags h
  refine ⟨fun hh => ?_, fun h1 h2 => ?_, fun hh => ?_⟩
  · obtain ⟨f1, f2, f3, f4⟩ := hA hh
    simp only [phaseFlags, f1, f2, f3, f4]
  · obtain ⟨f1, f2, f3, f4⟩ := hB h1 h2
    simp only [phaseFlags, f1, f2, f3, f4]
  · obtain ⟨f1, f2, f3, f4⟩ := hC hh
    simp only [phaseFlags, f1, f2, f3, f4]

/-- The cleanup does cancel the hint timer: after it no hint timer is
pending and the passing of time leaves `showHint` as it was. -/
theorem unmount_cancels_hint (s : State) (ms : Nat) :
    (∀ t ∈ (unmount s).timers, t.action ≠ TimerAction.hint) ∧
    ((wait (unmount s) ms).showHint = true ↔ s.showHint = true) := by
  have hno : ∀ t ∈ (unmount s).timers, t.action ≠ TimerAction.hint := by
    intro t ht
    simp only [unmount, List.mem_filter, decide_eq_true_eq] at ht
    exact ht.2
  refine ⟨hno, ?_⟩
  rw [(wait_spec (unmount s) ms).showHint]
  constructor
  · rintro (hh | ⟨t, ht, ha, -⟩)
    · exact hh
    · exact absurd ha (hno t ht)
  · exact fun hh => Or.inl hh

end Sequence

/-! ## The concrete sessions are sessions -/

section Concrete

theorem placeAll_valid : validFrom (mount demoLayout) placeAll = true := by
  simp [validFrom, placeAll, enabled, step, mount, demoLayout, initialPieces, makePiece,
    handleDragStart, handleDrop, TOTAL_PIECES, ROWS, COLS, zeroRnd, zoneOf, piecesPerZone,
    zonePosition, List.range, List.range.loop]

theorem dragLast_valid : validFrom (mount demoLayout) dragLast = true := by
  simp [validFrom, dragLast, placeFifteen, placeAll, enabled, step, mount, demoLayout,
    initialPieces, makePiece, handleDragStart, handleDrop, TOTAL_PIECES, ROWS, COLS, zeroRnd,
    zoneOf, piecesPerZone, zonePosition, List.range, List.range.loop]

theorem earlyDrag_valid : validFrom (mount demoLayout) earlyDrag = true := by
  simp [validFrom, earlyDrag, enabled, step, mount, demoLayout, initialPieces, makePiece,
    wait, advanceTo, earliest, fireTimer, handleDragStart, handleDrop, TOTAL_PIECES, ROWS,
    COLS, zeroRnd, zoneOf, piecesPerZone, zonePosition, List.range, List.range.loop]

theorem zeroRnd_unit (n : Nat) : 0 ≤ zeroRnd n ∧ zeroRnd n < 1 := by
  simp [zeroRnd]

end Concrete

/-! ## Tiles: layout, partition and monotonicity -/

/-- C2: in the state the layout generator produces and in every state reached
from it by `dragStart` (each on an unplaced piece), `dragOver`, `drop` and
the passing of time, every id below `TOTAL_PIECES` occurs exactly once across
`pieces` and `placedPieces`: the ids of `pieces` are distinct, and an id is
placed iff it is not unplaced. -/
theorem each_id_exactly_once (rnd : Nat → ℚ) (shuffled : List Piece)
    (hperm : shuffled.Perm (initialPieces rnd)) (es : List Event)
    (hvalid : validFrom (mount shuffled) es = true) :
    ((run (mount shuffled) es).pieces.map Piece.id).Nodup ∧
    (∀ i, i < TOTAL_PIECES →
      (i ∈ (run (mount shuffled) es).placedPieces ↔
        i ∉ (run (mount shuffled) es).pieces.map Piece.id)) ∧
    (∀ i, i < TOTAL_PIECES →
      ((run (mount shuffled) es).pieces.map Piece.id).count i +
        (if i ∈ (run (mount shuffled) es).placedPieces then 1 else 0) = 1) := by
  have h := inv_run (inv_mount hperm) hvalid
  refine ⟨h.nodup, ?_, ?_⟩
  · intro i hi
    rw [h.placed i]
    exact ⟨fun hh => hh.2, fun hh => ⟨hi, hh⟩⟩
  · intro i hi
    by_cases hm : i ∈ (run (mount shuffled) es).pieces.map Piece.id
    · have hnp : i ∉ (run (mount shuffled) es).placedPieces := by
        rw [h.placed i]
        exact fun hh => hh.2 hm
      rw [List.count_eq_one_of_mem h.nodup hm, if_neg hnp]
    · have hp : i ∈ (run (mount shuffled) es).placedPieces :=
        (h.placed i).mpr ⟨hi, hm⟩
      rw [List.count_eq_zero_of_not_mem hm, if_pos hp]

/-- C7: whatever the random draws and the shuffle, the layout has 16 tiles,
their ids are 0..15 without repetition, and every tile has
`correctRow = id / COLS` and `correctCol = id % COLS`, both at most 3.  No
event and no timer callback changes a record that stays in `pieces`: the
collection after it is a sublist of the collection before, so every piece of
a later state is a record of the layout. -/
theorem layout_ids_and_cells (rnd : Nat → ℚ) (shuffled : List Piece)
    (hperm : shuffled.Perm (initialPieces rnd)) :
    shuffled.length = 16 ∧
    (shuffled.map Piece.id).Nodup ∧
    (∀ i, i ∈ shuffled.map Piece.id ↔ i < 16) ∧
    (∀ p ∈ shuffled, p.correctRow = p.id / COLS ∧ p.correctCol = p.id % COLS ∧
      p.correctRow ≤ 3 ∧ p.correctCol ≤ 3) ∧
    (∀ (s : State) (e : Event), List.Sublist (step s e).pieces s.pieces) ∧
    (∀ (s : State) (a : TimerAction), (fireTimer s a).pieces = s.pieces) ∧
    (∀ (es : List Event), ∀ p ∈ (run (mount shuffled) es).pieces,
      p ∈ shuffled ∧ p.correctRow = p.id / COLS ∧ p.correctCol = p.id % COLS) := by
  have hids : (shuffled.map Piece.id).Perm (List.range TOTAL_PIECES) := by
    rw [← initialPieces_ids rnd]
    exact hperm.map _
  have hshape : ∀ p ∈ shuffled, p.correctRow = p.id / COLS ∧ p.correctCol = p.id % COLS ∧
      p.correctRow ≤ 3 ∧ p.correctCol ≤ 3 := by
    intro p hp
    obtain ⟨i, hi, rfl⟩ := mem_initialPieces (hperm.mem_iff.mp hp)
    have hi16 : i < 16 := hi
    refine ⟨rfl, rfl, ?_, ?_⟩
    · show i / 4 ≤ 3
      omega
    · show i % 4 ≤ 3
      omega
  refine ⟨?_, ?_, ?_, hshape, step_pieces_sublist, fireTimer_pieces, ?_⟩
  · rw [hperm.length_eq]
    simp [initialPieces, TOTAL_PIECES, ROWS, COLS]
  · exact hids.nodup_iff.mpr (List.nodup_range _)
  · intro i
    rw [hids.mem_iff, List.mem_range]
    rfl
  · intro es p hp
    have hmem : p ∈ shuffled := (run_pieces_sublist (mount shuffled) es).subset hp
    exact ⟨hmem, (hshape p hmem).1, (hshape p hmem).2.1⟩

/-- C10: no event and no timer callback removes an id from `placedPieces`, so
its size never decreases; and in a session (every `dragStart` on an unplaced
piece) its size never exceeds `TOTAL_PIECES`, which is 16. -/
theorem placed_only_grows (rnd : Nat → ℚ) (shuffled : List Piece)
    (hperm : shuffled.Perm (initialPieces rnd)) (es : List Event)
    (hvalid : validFrom (mount shuffled) es = true) :
    (∀ (s : State) (e : Event), s.placedPieces ⊆ (step s e).placedPieces) ∧
    (∀ (s : State) (e : Event), s.placedPieces.card ≤ (step s e).placedPieces.card) ∧
    (∀ (s : State) (a : TimerAction), (fireTimer s a).placedPieces = s.placedPieces) ∧
    (run (mount shuffled) es).placedPieces.card ≤ TOTAL_PIECES ∧ TOTAL_PIECES = 16 := by
  refine ⟨step_placedPieces_subset, ?_, fireTimer_placedPieces, ?_, rfl⟩
  · intro s e
    exact Finset.card_le_card (step_placedPieces_subset s e)
  · exact inv_card_le (inv_run (inv_mount hperm) hvalid)

/-! ## Zones of the layout -/

theorem zoneOf_eq (i : Nat) : zoneOf i = i / 4 := rfl

/-- C8: with every `Math.random()` draw a rational in [0, 1), the zone index
`Math.floor(i / piecesPerZone)` of every index below 16 is below 4, zone `z`
gets exactly the indices `4z .. 4z+3`, and the coordinates drawn for index `i`
lie in the rectangle of its zone: top x in [10, 90], y in [5, 20]; bottom x in
[10, 90], y in [80, 95]; left x in [5, 20], y in [25, 75]; right x in
[80, 95], y in [25, 75]; so both coordinates are in [0, 100]. -/
theorem zone_rectangles (rnd : Nat → ℚ) (hrnd : ∀ n, 0 ≤ rnd n ∧ rnd n < 1) (i : Nat)
    (hi : i < 16) :
    piecesPerZone = 4 ∧ zoneOf i < 4 ∧
    (∀ z, zoneOf i = z ↔ 4 * z ≤ i ∧ i ≤ 4 * z + 3) ∧
    (∀ z, z < 4 → (List.range TOTAL_PIECES).filter (fun j => zoneOf j = z) =
      [4 * z, 4 * z + 1, 4 * z + 2, 4 * z + 3]) ∧
    (initialPieces rnd)[i]? = some (makePiece rnd i) ∧
    (zoneOf i = 0 → 10 ≤ (makePiece rnd i).currentX ∧ (makePiece rnd i).currentX ≤ 90 ∧
      5 ≤ (makePiece rnd i).currentY ∧ (makePiece rnd i).currentY ≤ 20) ∧
    (zoneOf i = 1 → 10 ≤ (makePiece rnd i).currentX ∧ (makePiece rnd i).currentX ≤ 90 ∧
      80 ≤ (makePiece rnd i).currentY ∧ (makePiece rnd i).currentY ≤ 95) ∧
    (zoneOf i = 2 → 5 ≤ (makePiece rnd i).currentX ∧ (makePiece rnd i).currentX ≤ 20 ∧
      25 ≤ (makePiece rnd i).currentY ∧ (makePiece rnd i).currentY ≤ 75) ∧
    (zoneOf i = 3 → 80 ≤ (makePiece rnd i).currentX ∧ (makePiece rnd i).currentX ≤ 95 ∧
      25 ≤ (makePiece rnd i).currentY ∧ (makePiece rnd i).currentY ≤ 75) ∧
    (0 ≤ (makePiece rnd i).currentX ∧ (makePiece rnd i).currentX ≤ 100 ∧
      0 ≤ (makePiece rnd i).currentY ∧ (makePiece rnd i).currentY ≤ 100) := by
  have hx := hrnd (2 * i)
  have hy := hrnd (2 * i + 1)
  have hz : zoneOf i < 4 := by
    rw [zoneOf_eq]
    omega
  refine ⟨rfl, hz, ?_, ?_, ?_, ?_, ?_, ?_, ?_, ?_⟩
  · intro z
    rw [zoneOf_eq]
    omega
  · intro z hz4
    interval_cases z <;> decide
  · simp [initialPieces, TOTAL_PIECES, ROWS, COLS, List.getElem?_range, hi]
  · intro h0
    simp only [makePiece, h0, zonePosition]
    refine ⟨?_, ?_, ?_, ?_⟩ <;> linarith [hx.1, hx.2, hy.1, hy.2]
  · intro h0
    simp only [makePiece, h0, zonePosition]
    refine ⟨?_, ?_, ?_, ?_⟩ <;> linarith [hx.1, hx.2, hy.1, hy.2]
  · intro h0
    simp only [makePiece, h0, zonePosition]
    refine ⟨?_, ?_, ?_, ?_⟩ <;> linarith [hx.1, hx.2, hy.1, hy.2]
  · intro h0
    simp only [makePiece, h0, zonePosition]
    refine ⟨?_, ?_, ?_, ?_⟩ <;> linarith [hx.1, hx.2, hy.1, hy.2]
  · simp only [makePiece]
    generalize zoneOf i = z at hz
    interval_cases z <;> simp only [zonePosition] <;>
      refine ⟨?_, ?_, ?_, ?_⟩ <;> linarith [hx.1, hx.2, hy.1, hy.2]

/-! ## Placement by `handleDrop` -/

/-- C1: after `handleDrop(e, row, col)` an id is in `placedPieces` iff it was
there before or it is the id of the dragged piece and `(row, col)` is that
piece's `(correctRow, correctCol)`; with no dragged piece, or on any other
cell, `placedPieces` is unchanged.  Dragging a piece with id 5 and correct
cell (1, 1) and dropping it on (1, 1) places 5; dropping it on (0, 0) leaves
`placedPieces` as it was. -/
theorem drop_places_iff_dragged_on_correct_cell (s : State) (row col : Nat) :
    (∀ i, i ∈ (handleDrop s row col).placedPieces ↔
        i ∈ s.placedPieces ∨
          ∃ d, s.draggedPiece = some d ∧ d.id = i ∧ d.correctRow = row ∧ d.correctCol = col) ∧
    (s.draggedPiece = none → (handleDrop s row col).placedPieces = s.placedPieces) ∧
    (∀ d, s.draggedPiece = some d → ¬ (d.correctRow = row ∧ d.correctCol = col) →
        (handleDrop s row col).placedPieces = s.placedPieces) ∧
    (∀ x y : ℚ, 5 ∈ (handleDrop (handleDragStart s ⟨5, 1, 1, x, y⟩) 1 1).placedPieces ∧
        (handleDrop (handleDragStart s ⟨5, 1, 1, x, y⟩) 0 0).placedPieces = s.placedPieces) := by
  refine ⟨mem_handleDrop_placedPieces s row col, ?_, ?_, ?_⟩
  · intro h
    rw [handleDrop_placedPieces, h]
  · intro d h hc
    rw [handleDrop_placedPieces, h]
    simp only [if_neg hc]
  · intro x y
    constructor
    · rw [handleDrop_placedPieces]
      simp [handleDragStart]
    · rw [handleDrop_placedPieces]
      simp [handleDragStart]

/-! ## Render surface: the crop of a tile -/

/-- C9: for every tile id below 16 the `backgroundPosition` of the floating
piece equals that of the grid cell with index = id, whose `(row, col)` is the
piece's `(correctRow, correctCol)`; a drop of the dragged piece on the cell
with index `index` fills a cell iff `index = id`, and the cell it fills is the
cell `id`; both offsets are in [0, 100] and the divisors `COLS - 1` and
`ROWS - 1` are not zero. -/
theorem crop_matches_destination (rnd : Nat → ℚ) (i : Nat) (hi : i < 16) :
    pieceBackgroundPosition (makePiece rnd i) = cellBackgroundPosition i ∧
    (cellRow i = (makePiece rnd i).correctRow ∧ cellCol i = (makePiece rnd i).correctCol) ∧
    (∀ index, index < 16 →
      ((makePiece rnd i).correctRow = cellRow index ∧
        (makePiece rnd i).correctCol = cellCol index ↔ index = i)) ∧
    (∀ (s : State) (index : Nat), isPlaced s index = true ↔ index ∈ s.placedPieces) ∧
    (∀ (s : State) (index : Nat), index < 16 → ∀ (cell : Nat),
      (isPlaced (handleDrop (handleDragStart s (makePiece rnd i)) (cellRow index)
          (cellCol index)) cell = true ↔
        isPlaced s cell = true ∨ (index = i ∧ cell = i))) ∧
    (0 ≤ (cellBackgroundPosition i).1 ∧ (cellBackgroundPosition i).1 ≤ 100 ∧
      0 ≤ (cellBackgroundPosition i).2 ∧ (cellBackgroundPosition i).2 ≤ 100) ∧
    (((COLS - 1 : Nat) : ℚ) ≠ 0 ∧ ((ROWS - 1 : Nat) : ℚ) ≠ 0) := by
  have hcell : ∀ index, index < 16 →
      ((makePiece rnd i).correctRow = cellRow index ∧
        (makePiece rnd i).correctCol = cellCol index ↔ index = i) := by
    intro index hindex
    show (i / 4 = index / 4 ∧ i % 4 = index % 4) ↔ index = i
    omega
  refine ⟨rfl, ⟨rfl, rfl⟩, hcell, ?_, ?_, ?_, ?_⟩
  · intro s index
    exact decide_eq_true_iff
  · intro s index hindex cell
    unfold isPlaced
    rw [decide_eq_true_iff, decide_eq_true_iff,
      mem_handleDrop_placedPieces]
    constructor
    · rintro (hc | ⟨d, hd, hid, hr, hcol⟩)
      · exact Or.inl hc
      · have hdd : makePiece rnd i = d := Option.some.inj hd
        subst hdd
        exact Or.inr ⟨(hcell index hindex).mp ⟨hr, hcol⟩, hid.symm⟩
    · rintro (hc | ⟨h1, h2⟩)
      · exact Or.inl hc
      · exact Or.inr ⟨makePiece rnd i, rfl, h2.symm, ((hcell index hindex).mpr h1).1,
          ((hcell index hindex).mpr h1).2⟩
  · have h1 : ((cellCol i : Nat) : ℚ) ≤ 3 := by
      have : cellCol i ≤ 3 := by
        show i % 4 ≤ 3
        omega
      exact_mod_cast this
    have h2 : ((cellRow i : Nat) : ℚ) ≤ 3 := by
      have : cellRow i ≤ 3 := by
        show i / 4 ≤ 3
        omega
      exact_mod_cast this
    have h3 : (0 : ℚ) ≤ ((cellCol i : Nat) : ℚ) := Nat.cast_nonneg _
    have h4 : (0 : ℚ) ≤ ((cellRow i : Nat) : ℚ) := Nat.cast_nonneg _
    simp only [cellBackgroundPosition, COLS, ROWS]
    norm_num
    refine ⟨?_, ?_, ?_, ?_⟩
    · positivity
    · linarith
    · positivity
    · linarith
  · simp [COLS, ROWS]

/-! ## The completion sequence is started once -/

/-- C3: in a session (every `dragStart` on an unplaced piece) at most one
`drop` starts the completion sequence, that is schedules the 1500 ms timer,
and such a call also sets `gridDisappearing`; a `drop` starts it exactly when
it takes the size of `placedPieces` from 15 to 16; when all 16 tiles end
up placed it was started exactly once, and once 16 are placed no further
event starts it again. -/
theorem completion_started_once (rnd : Nat → ℚ) (shuffled : List Piece)
    (hperm : shuffled.Perm (initialPieces rnd)) (es : List Event)
    (hvalid : validFrom (mount shuffled) es = true) :
    countStarts (mount shuffled) es ≤ 1 ∧
    ((run (mount shuffled) es).placedPieces.card = 16 →
      countStarts (mount shuffled) es = 1) ∧
    (∀ row col, startedBy (run (mount shuffled) es) row col = true ↔
      (run (mount shuffled) es).placedPieces.card = 15 ∧
        (handleDrop (run (mount shuffled) es) row col).placedPieces.card = 16) ∧
    (∀ row col, startedBy (run (mount shuffled) es) row col = true →
      (handleDrop (run (mount shuffled) es) row col).gridDisappearing = true) ∧
    (∀ fs, validFrom (run (mount shuffled) es) fs = true →
      (run (mount shuffled) es).placedPieces.card = 16 →
      countStarts (run (mount shuffled) es) fs = 0) := by
  have hinv0 := inv_mount hperm
  have hinv := inv_run hinv0 hvalid
  have hcount := countStarts_eq hinv0 hvalid
  have h16 : TOTAL_PIECES = 16 := rfl
  refine ⟨?_, ?_, ?_, ?_, ?_⟩
  · rw [hcount]
    split_ifs <;> omega
  · intro hfull
    rw [hcount, if_pos]
    refine ⟨?_, hfull.trans h16.symm⟩
    show (∅ : Finset Nat).card < TOTAL_PIECES
    simp [h16]
  · intro row col
    exact started_iff_last_tile hinv row col
  · intro row col hst
    exact started_gridDisappearing hst
  · intro fs hfs hfull
    rw [countStarts_eq hinv hfs, if_neg]
    intro hh
    omega

/-- Placing all 16 pieces of the reversed layout starts the completion
sequence exactly once. -/
theorem completion_started_once_witness :
    demoLayout.Perm (initialPieces zeroRnd) ∧
    validFrom (mount demoLayout) placeAll = true ∧
    countStarts (mount demoLayout) placeAll = 1 :=
  ⟨demoLayout_perm, placeAll_valid,
    (completion_started_once zeroRnd demoLayout demoLayout_perm placeAll placeAll_valid).2.1
      (by decide)⟩

/-! ## The phases of the completion sequence -/

/-- C6: let a `drop` of a session start the completion sequence at time `T`.
With every timer firing exactly when it is due, the state `ms` milliseconds
later has `gridDisappearing` true and `showingFullImage`, `isComplete`,
`showOverlay` false for `ms < 1500`; `showingFullImage` and `isComplete` true
and `showOverlay` false for `1500 ≤ ms < 4500`; and `showOverlay` true for
`4500 ≤ ms`, with nothing changing afterwards.  The same holds for the state
after any further events of the session, read at its own clock. -/
theorem completion_phases (rnd : Nat → ℚ) (shuffled : List Piece)
    (hperm : shuffled.Perm (initialPieces rnd)) (es : List Event)
    (hvalid : validFrom (mount shuffled) es = true) (row col : Nat)
    (hstart : startedBy (run (mount shuffled) es) row col = true) (fs : List Event)
    (hfs : validFrom (handleDrop (run (mount shuffled) es) row col) fs = true) :
    (∀ ms, (wait (handleDrop (run (mount shuffled) es) row col) ms).now =
      (run (mount shuffled) es).now + ms) ∧
    (∀ ms, ms < 1500 →
      phaseFlags (wait (handleDrop (run (mount shuffled) es) row col) ms) =
        (true, false, false, false)) ∧
    (∀ ms, 1500 ≤ ms → ms < 4500 →
      phaseFlags (wait (handleDrop (run (mount shuffled) es) row col) ms) =
        (true, true, true, false)) ∧
    (∀ ms, 4500 ≤ ms →
      phaseFlags (wait (handleDrop (run (mount shuffled) es) row col) ms) =
        (true, true, true, true)) ∧
    (run (mount shuffled) es).now ≤
      (run (handleDrop (run (mount shuffled) es) row col) fs).now ∧
    ((run (handleDrop (run (mount shuffled) es) row col) fs).now <
        (run (mount shuffled) es).now + 1500 →
      phaseFlags (run (handleDrop (run (mount shuffled) es) row col) fs) =
        (true, false, false, false)) ∧
    ((run (mount shuffled) es).now + 1500 ≤
        (run (handleDrop (run (mount shuffled) es) row col) fs).now →
      (run (handleDrop (run (mount shuffled) es) row col) fs).now <
        (run (mount shuffled) es).now + 4500 →
      phaseFlags (run (handleDrop (run (mount shuffled) es) row col) fs) =
        (true, true, true, false)) ∧
    ((run (mount shuffled) es).now + 4500 ≤
        (run (handleDrop (run (mount shuffled) es) row col) fs).now →
      phaseFlags (run (handleDrop (run (mount shuffled) es) row col) fs) =
        (true, true, true, true)) := by
  have hinv := inv_run (inv_mount hperm) hvalid
  have h16 : TOTAL_PIECES = 16 := rfl
  have hcard := ((started_iff_last_tile hinv row col).mp hstart).1
  have hplay : Playing (run (mount shuffled) es) :=
    playing_run (inv_mount hperm) (fun _ => playing_mount shuffled) hvalid (by omega)
  have hseq0 := sequenced_start hinv hplay hstart
  have hseq := sequenced_run hseq0 hfs
  have hmono := run_now_le (handleDrop (run (mount shuffled) es) row col) fs
  rw [handleDrop_now] at hmono
  have hwnow : ∀ ms, (wait (handleDrop (run (mount shuffled) es) row col) ms).now =
      (run (mount shuffled) es).now + ms := by
    intro ms
    rw [wait_now, handleDrop_now]
  obtain ⟨hA, hB, hC⟩ := sequenced_phaseFlags hseq
  refine ⟨hwnow, ?_, ?_, ?_, hmono, hA, hB, hC⟩
  · intro ms hms
    refine (sequenced_phaseFlags (sequenced_wait hseq0 ms)).1 ?_
    rw [hwnow]
    omega
  · intro ms h1 h2
    refine (sequenced_phaseFlags (sequenced_wait hseq0 ms)).2.1 ?_ ?_
    · rw [hwnow]
      omega
    · rw [hwnow]
      omega
  · intro ms hms
    refine (sequenced_phaseFlags (sequenced_wait hseq0 ms)).2.2 ?_
    rw [hwnow]
    omega

/-- Dropping the last piece of the reversed layout on cell (3, 3) starts the
sequence; 2000 ms later the full image is shown and the overlay is not. -/
theorem completion_phases_witness :
    demoLayout.Perm (initialPieces zeroRnd) ∧
    validFrom (mount demoLayout) dragLast = true ∧
    startedBy (run (mount demoLayout) dragLast) 3 3 = true ∧
    phaseFlags (wait (handleDrop (run (mount demoLayout) dragLast) 3 3) 2000) =
      (true, true, true, false) :=
  ⟨demoLayout_perm, dragLast_valid, by decide,
    (completion_phases zeroRnd demoLayout demoLayout_perm dragLast dragLast_valid 3 3
      (by decide) [] rfl).2.2.1 2000 (by decide) (by decide)⟩

/-! ## The hint flag -/

/-- C4, as stated, fails: a drag begins 5000 ms after mount and clears the
flag, and at 20000 ms the hint timer, which `handleDragStart` does not
cancel, sets it again. -/
theorem hint_returns_after_early_drag :
    validFrom (mount demoLayout) earlyDrag = true ∧
    (run (mount demoLayout) (earlyDrag.take 2)).now = 5000 ∧
    (run (mount demoLayout) (earlyDrag.take 2)).showHint = false ∧
    (run (mount demoLayout) earlyDrag).now = 20000 ∧
    (run (mount demoLayout) earlyDrag).showHint = true :=
  ⟨earlyDrag_valid, by decide, by decide, by decide, by decide⟩

/-- C4, amended: every `handleDragStart` sets `showHint` to false.  The hint
timer fires at 20000 ms whether or not a drag has begun: with no drag so far
`showHint` is true exactly from 20000 ms on; after a drag, and until the next
one, it is true exactly when that drag began before 20000 ms and the clock
has reached 20000 ms; once a drag has begun at or after 20000 ms it is false
in every later state. -/
theorem hint_flag_follows_timer_and_drag (shuffled : List Piece) (es : List Event) :
    (∀ (s : State) (p : Piece), (handleDragStart s p).showHint = false) ∧
    ((∀ e ∈ es, isDragStart e = false) →
      ((run (mount shuffled) es).showHint = true ↔ 20000 ≤ (run (mount shuffled) es).now)) ∧
    (∀ pre p post, es = pre ++ Event.dragStart p :: post →
      (∀ e ∈ post, isDragStart e = false) →
      ((run (mount shuffled) es).showHint = true ↔
        (run (mount shuffled) pre).now < 20000 ∧ 20000 ≤ (run (mount shuffled) es).now)) ∧
    (∀ pre p post, es = pre ++ Event.dragStart p :: post →
      20000 ≤ (run (mount shuffled) pre).now →
      (run (mount shuffled) es).showHint = false) := by
  refine ⟨fun _ _ => rfl, ?_, ?_, ?_⟩
  · intro hno
    rw [showHint_without_drag (hintInv_mount shuffled) hno]
    constructor
    · rintro (hh | ⟨-, hh⟩)
      · cases hh
      · exact hh
    · intro hh
      exact Or.inr ⟨by show 0 < 20000; omega, hh⟩
  · intro pre p post hes hno
    subst hes
    rw [run_append]
    simp only [run, step]
    have hpre := hintInv_run (hintInv_mount shuffled) pre
    have hdrag : HintInv (handleDragStart (run (mount shuffled) pre) p) :=
      hintInv_step hpre (Event.dragStart p)
    rw [showHint_without_drag hdrag hno]
    constructor
    · rintro (hh | hh)
      · cases hh
      · exact hh
    · intro hh
      exact Or.inr hh
  · intro pre p post hes hnow
    subst hes
    rw [run_append]
    simp only [run, step]
    have hpre := hintInv_run (hintInv_mount shuffled) pre
    have hdrag : HintInv (handleDragStart (run (mount shuffled) pre) p) :=
      hintInv_step hpre (Event.dragStart p)
    exact showHint_stays_false hdrag hnow rfl post

/-- A drag that begins at 25000 ms, after the hint timer has fired, clears
the flag for good: it is still false 10000 ms later. -/
theorem hint_flag_follows_timer_and_drag_witness :
    (run (mount demoLayout)
      [Event.wait 25000, Event.dragStart (makePiece zeroRnd 0), Event.wait 10000]).showHint =
        false :=
  (hint_flag_follows_timer_and_drag demoLayout
    [Event.wait 25000, Event.dragStart (makePiece zeroRnd 0), Event.wait 10000]).2.2.2
    [Event.wait 25000] (makePiece zeroRnd 0) [Event.wait 10000] rfl (by decide)

/-! ## Teardown -/

/-- C5, evaluated on the code: after all 16 pieces are placed the hint timer
and the 1500 ms completion timer are pending; `unmount` cancels the hint
timer only, and the completion callbacks still run afterwards: at 1500 ms
`showingFullImage` and `isComplete` become true and the 3000 ms timer is
scheduled, at 4500 ms `showOverlay` becomes true. -/
theorem completion_timers_survive_unmount :
    validFrom (mount demoLayout) placeAll = true ∧
    (run (mount demoLayout) placeAll).timers =
      [⟨20000, TimerAction.hint⟩, ⟨1500, TimerAction.fullImage⟩] ∧
    (unmount (run (mount demoLayout) placeAll)).timers = [⟨1500, TimerAction.fullImage⟩] ∧
    phaseFlags (unmount (run (mount demoLayout) placeAll)) = (true, false, false, false) ∧
    phaseFlags (wait (unmount (run (mount demoLayout) placeAll)) 1500) =
      (true, true, true, false) ∧
    (wait (unmount (run (mount demoLayout) placeAll)) 1500).timers =
      [⟨4500, TimerAction.overlay⟩] ∧
    phaseFlags (wait (unmount (run (mount demoLayout) placeAll)) 4500) =
      (true, true, true, true) :=
  ⟨placeAll_valid, by decide, by decide, by decide, by decide, by decide, by decide⟩

/-! ## The tile theorems on the concrete sessions -/

/-- After all 16 pieces of the reversed layout are placed, id 7 is placed and
is no longer among the unplaced pieces. -/
theorem each_id_exactly_once_witness :
    demoLayout.Perm (initialPieces zeroRnd) ∧
    validFrom (mount demoLayout) placeAll = true ∧
    (7 ∈ (run (mount demoLayout) placeAll).placedPieces ↔
      7 ∉ (run (mount demoLayout) placeAll).pieces.map Piece.id) :=
  ⟨demoLayout_perm, placeAll_valid,
    (each_id_exactly_once zeroRnd demoLayout demoLayout_perm placeAll placeAll_valid).2.1 7
      (by decide)⟩

/-- The reversed layout has 16 tiles. -/
theorem layout_ids_and_cells_witness :
    demoLayout.Perm (initialPieces zeroRnd) ∧ demoLayout.length = 16 :=
  ⟨demoLayout_perm, (layout_ids_and_cells zeroRnd demoLayout demoLayout_perm).1⟩

/-- With fifteen pieces placed and the last one picked up, at most 16 ids
are placed. -/
theorem placed_only_grows_witness :
    demoLayout.Perm (initialPieces zeroRnd) ∧
    validFrom (mount demoLayout) dragLast = true ∧
    (run (mount demoLayout) dragLast).placedPieces.card ≤ TOTAL_PIECES :=
  ⟨demoLayout_perm, dragLast_valid,
    (placed_only_grows zeroRnd demoLayout demoLayout_perm dragLast dragLast_valid).2.2.2.1⟩

/-- With every draw 0, index 9 is in zone 2, the left zone. -/
theorem zone_rectangles_witness :
    (∀ n, 0 ≤ zeroRnd n ∧ zeroRnd n < 1) ∧ 9 < 16 ∧ zoneOf 9 < 4 ∧
    (5 ≤ (makePiece zeroRnd 9).currentX ∧ (makePiece zeroRnd 9).currentX ≤ 20 ∧
      25 ≤ (makePiece zeroRnd 9).currentY ∧ (makePiece zeroRnd 9).currentY ≤ 75) :=
  ⟨zeroRnd_unit, by decide, (zone_rectangles zeroRnd zeroRnd_unit 9 (by decide)).2.1,
    (zone_rectangles zeroRnd zeroRnd_unit 9 (by decide)).2.2.2.2.2.2.2.1 (by decide)⟩

/-- The floating piece 5 is cropped like grid cell 5. -/
theorem crop_matches_destination_witness :
    5 < 16 ∧ pieceBackgroundPosition (makePiece zeroRnd 5) = cellBackgroundPosition 5 :=
  ⟨by decide, (crop_matches_destination zeroRnd 5 (by decide)).1⟩

end PuzzlePage
